import Mathlib

/-!
Verification development for the `urlcodec` repository (Go).

The repository implements a codec between nested data structures and flat
URL key/value pairs (`urlencoder.go`).  This file gives a shallow embedding
of that code in Lean and settles a list of claims about it.

Modelling conventions:
  * `map[string]any` values arising during decode are modelled by the
    inductive type `DVal` (strings, nested maps, `*minSlice` sparse slices,
    and dense `[]any` slices after conversion).  Go maps are modelled as
    association lists with insert-or-update assignment; iteration order of a
    Go map is unspecified, the list order is one admissible order.
  * `url.Values` is `map[string][]string`; `Decode` only reads `value[0]`,
    so the decode pipeline is modelled on `List (String × String)` and a
    separate `decodeValues` models the full `[]string` lists (with `none`
    for the out-of-bounds access `value[0]` on an empty list, which panics
    in Go).
  * The regular expression `(\w+)\[(\d+)\]` used with `FindStringSubmatch`
    is modelled by `findSliceMatch`: because `[` and `]` are not word
    characters and digits are word characters, the leftmost-first match of
    this pattern is forced to be: the maximal word run starting at the
    match position, a literal `[`, a maximal nonempty digit run, and `]`.
  * Errors become an inductive `DErr`, one constructor per `fmt.Errorf`
    site of the source.
  * Machine integers: slice indices are parsed with `strconv.Atoi` on a
    digit string; `Atoi` fails (out of range) once the value exceeds
    `2^63 - 1` on a 64-bit platform, which is modelled by the explicit
    bound check in `parseSliceIndex`.
-/

set_option autoImplicit false

namespace Urlcodec

/-- Values of the decoded tree, modelling `any` as used by `decodeURL`:
`string` leaves, `map[string]any`, the `*minSlice` sparse-slice helper
(`elements map[int]any`), and `[]any` produced by `minSlice.toSlice`. -/
inductive DVal : Type where
  | str (s : String)
  | map (entries : List (String × DVal))
  | mins (elements : List (Int × DVal))
  | seq (elements : List DVal)
deriving Repr

/-- `map[string]any`, as an association list. -/
abbrev SMap := List (String × DVal)

/-- Go map read `m[k]`. -/
def lookupStr : SMap → String → Option DVal
  | [], _ => none
  | (k, v) :: rest, key => if k = key then some v else lookupStr rest key

/-- Go map assignment `m[k] = v` (update in place, or append a new key). -/
def insertStr : SMap → String → DVal → SMap
  | [], key, value => [(key, value)]
  | (k, v) :: rest, key, value =>
    if k = key then (key, value) :: rest else (k, v) :: insertStr rest key value

/-- Read on the `map[int]any` inside a `minSlice` (`minSlice.get`). -/
def lookupInt : List (Int × DVal) → Int → Option DVal
  | [], _ => none
  | (k, v) :: rest, key => if k = key then some v else lookupInt rest key

/-- Assignment on the `map[int]any` inside a `minSlice` (`minSlice.set`). -/
def insertInt : List (Int × DVal) → Int → DVal → List (Int × DVal)
  | [], key, value => [(key, value)]
  | (k, v) :: rest, key, value =>
    if k = key then (key, value) :: rest else (k, v) :: insertInt rest key value

/-- `maxRecursionDepth = 10` from the source. -/
def maxRecursionDepth : Nat := 10

/-- `maxSliceSize = 1000` from the source. -/
def maxSliceSize : Nat := 1000

/-- `strings.Split(key, ".")` on the underlying characters: split at every
dot; `Split` always returns at least one (possibly empty) piece. -/
def splitDotsChars : List Char → List (List Char)
  | [] => [[]]
  | c :: rest =>
    if c = '.' then [] :: splitDotsChars rest
    else
      match splitDotsChars rest with
      | [] => [[c]]
      | g :: gs => (c :: g) :: gs

/-- `strings.Split(key, ".")`. -/
def splitDots (s : String) : List String :=
  (splitDotsChars s.data).map (fun cs => String.mk cs)

/-- Go regexp `\w`: ASCII letters, digits and underscore. -/
def isWordChar (c : Char) : Bool := c.isAlpha || c.isDigit || c = '_'

/-- Attempt to match `(\w+)\[(\d+)\]` anchored at the start of `cs`,
returning the two captures.  Greedy `\w+` cannot stop before a word
character and `[` is not a word character, so the name capture is exactly
the maximal word run; likewise the digit capture is the maximal digit run. -/
def matchAt (cs : List Char) : Option (List Char × List Char) :=
  let name := cs.takeWhile isWordChar
  let rest1 := cs.dropWhile isWordChar
  if name.isEmpty then none
  else if rest1.head? = some '[' then
    let digits := rest1.tail.takeWhile Char.isDigit
    let rest2 := rest1.tail.dropWhile Char.isDigit
    if digits.isEmpty then none
    else if rest2.head? = some ']' then some (name, digits)
    else none
  else none

/-- Scan for the leftmost match of `(\w+)\[(\d+)\]`. -/
def findSliceAux : List Char → Option (List Char × List Char)
  | [] => none
  | c :: rest =>
    match matchAt (c :: rest) with
    | some r => some r
    | none => findSliceAux rest

/-- `regexp.MustCompile(sliceRegexp).FindStringSubmatch(part)`, reduced to
the two captures (`nil` becomes `none`). -/
def findSliceMatch (s : String) : Option (String × String) :=
  (findSliceAux s.data).map (fun p => (String.mk p.1, String.mk p.2))

/-- Numeric value of a decimal digit string (the successful path of
`strconv.Atoi` on a `\d+` capture). -/
def digitsToNat (ds : List Char) : Nat :=
  ds.foldl (fun n c => n * 10 + (c.toNat - 48)) 0

/-- The error values produced by the decode path, one constructor per
`fmt.Errorf` site in `urlencoder.go`. -/
inductive DErr : Type where
  | conflictingEmptyKey
  | recursionDepthExceeded
  | invalidSliceIndex (part : String)
  | invalidIndex (digits : String)
  | negativeIndex (idx : Int)
  | sliceSizeExceeded
  | conflictingKey (key : String)
  | expectedMap
  | expectedMinSlice
deriving Repr, DecidableEq

/-- `parseSliceIndex`: convert the two captures to a slice name and an
index.  The length-3 check always passes for a successful submatch.
`strconv.Atoi` fails with a range error when the digits exceed the 64-bit
int range; a parsed negative index would be rejected, but the `\d+`
capture is always non-negative. -/
def parseSliceIndex (name digits : String) : Except DErr (String × Int) :=
  if (2 : Nat) ^ 63 ≤ digitsToNat digits.data then .error (.invalidIndex digits)
  else if ((digitsToNat digits.data : Int)) < 0 then
    .error (.negativeIndex (digitsToNat digits.data : Int))
  else .ok (name, (digitsToNat digits.data : Int))

/-- `getOrCreateSlice`: create an empty `minSlice` under `sliceName` when
absent, fail when the existing binding is not a `*minSlice`, and reject
the access when the slice already holds `maxSliceSize` entries. -/
def getOrCreateSlice (current : SMap) (sliceName : String) :
    Except DErr (List (Int × DVal)) :=
  match lookupStr current sliceName with
  | none =>
    -- freshly created empty minSlice; the size check still runs on it
    if maxSliceSize ≤ ([] : List (Int × DVal)).length then
      .error .sliceSizeExceeded
    else .ok []
  | some (.mins es) =>
    if maxSliceSize ≤ es.length then .error .sliceSizeExceeded else .ok es
  | some _ => .error .expectedMinSlice

/-- `setSliceValue`: write `value` at the parsed index of the named slice
(`minSlice.set` overwrites silently) and store the slice back. -/
def setSliceValue (current : SMap) (name digits : String) (value : DVal) :
    Except DErr SMap :=
  match parseSliceIndex name digits with
  | .error e => .error e
  | .ok (sliceName, idx) =>
    match getOrCreateSlice current sliceName with
    | .error e => .error e
    | .ok es => .ok (insertStr current sliceName (.mins (insertInt es idx value)))

/-- `setFinalValue`: at the last path segment, a segment containing both
brackets that does not match the slice grammar is rejected; a matching
segment is a slice write; otherwise a plain key write that fails when the
key already exists. -/
def setFinalValue (current : SMap) (part : String) (value : DVal) :
    Except DErr SMap :=
  if part.data.contains '[' && part.data.contains ']' &&
      (findSliceMatch part).isNone then
    .error (.invalidSliceIndex part)
  else
    match findSliceMatch part with
    | some (name, digits) => setSliceValue current name digits value
    | none =>
      if (lookupStr current part).isSome then .error (.conflictingKey part)
      else .ok (insertStr current part value)

/-- The segment loop of `setNestedMapValue` together with
`getIntermediateValue` / `createMapIntoSlice`: walk the parts and set the
value at the last part.  The first component counts the processed
segments (the loop increments the shared depth counter once per
iteration; the caller adds the count to the incoming counter, which is
the same arithmetic the Go loop performs).  In-place mutation of nested
Go maps is modelled by rebuilding the updated submap into its parent,
which is equivalent because every nested container has a unique parent
reference and any error aborts the whole decode. -/
def setParts (current : SMap) (parts : List String) (value : DVal) :
    Nat × Except DErr SMap :=
  match parts with
  | [] => (0, .ok current)
  | [part] => (1, setFinalValue current part value)
  | part :: next :: rest =>
    match findSliceMatch part with
    | some (name, digits) =>
      -- createMapIntoSlice
      match parseSliceIndex name digits with
      | .error e => (1, .error e)
      | .ok (sliceName, idx) =>
        match getOrCreateSlice current sliceName with
        | .error e => (1, .error e)
        | .ok es =>
          match (match lookupInt es idx with
                 | some e => e
                 | none => DVal.map []) with
          | .map m =>
            match setParts m (next :: rest) value with
            | (c, .error e) => (1 + c, .error e)
            | (c, .ok m2) =>
              (1 + c, .ok (insertStr current sliceName
                (.mins (insertInt es idx (.map m2)))))
          | _ => (1, .error .expectedMap)
    | none =>
      -- plain segment: create an empty map when absent, then getMap
      match (match lookupStr current part with
             | some v => v
             | none => DVal.map []) with
      | .map m =>
        match setParts m (next :: rest) value with
        | (c, .error e) => (1 + c, .error e)
        | (c, .ok m2) => (1 + c, .ok (insertStr current part (.map m2)))
      | _ => (1, .error .expectedMap)

/-- `setNestedMapValue`: empty keys are a special case; the path is split
on dots, rejected when it has more than `maxRecursionDepth` parts, and
walked by `setParts`, whose per-segment increments are added to the
shared depth counter. -/
def setNestedMapValue (current : SMap) (key : String) (value : DVal)
    (depth : Nat) : Nat × Except DErr SMap :=
  if key = "" then
    if (lookupStr current "").isSome then (depth, .error .conflictingEmptyKey)
    else (depth, .ok (insertStr current "" value))
  else if maxRecursionDepth < (splitDots key).length then
    (depth, .error .recursionDepthExceeded)
  else
    match setParts current (splitDots key) value with
    | (c, r) => (depth + c, r)

/-- `minSlice.toSlice`: drop the indices, keeping the stored values in
iteration order of the element map (modelled by the list order). -/
def toSlice (es : List (Int × DVal)) : List DVal := es.map Prod.snd

mutual
/-- One step of `convertMinSlicesToRegularSlices`: a `*minSlice` value is
replaced by `toSlice` (its elements are not walked); a nested map is
converted recursively; anything else is untouched. -/
def convertVal : DVal → DVal
  | .mins es => .seq (toSlice es)
  | .map m => .map (convertMap m)
  | v => v

/-- `convertMinSlicesToRegularSlices` over all entries of a map. -/
def convertMap : SMap → SMap
  | [] => []
  | (k, v) :: rest => (k, convertVal v) :: convertMap rest
end

/-- The pair loop of `decodeURL`, threading the shared depth counter. -/
def decodeLoop (urlData : SMap) (pairs : List (String × String))
    (depth : Nat) : Nat × Except DErr SMap :=
  match pairs with
  | [] => (depth, .ok urlData)
  | (key, value) :: rest =>
    match setNestedMapValue urlData key (.str value) depth with
    | (d, .error e) => (d, .error e)
    | (d, .ok m) => decodeLoop m rest d

/-- `decodeURL` (the body of `URLEncoder.Decode`), on the first value of
every key: process all pairs, then convert the sparse slices. -/
def decodeURL (pairs : List (String × String)) : Except DErr SMap :=
  match decodeLoop [] pairs 0 with
  | (_, .error e) => .error e
  | (_, .ok m) => .ok (convertMap m)

/-- The pair loop of `decodeURL` on full `url.Values` entries
(`map[string][]string`): the body reads `value[0]` unconditionally, which
in Go panics on an empty list; the panic outcome is `none`. -/
def decodeValuesLoop (urlData : SMap) (values : List (String × List String))
    (depth : Nat) : Option (Nat × Except DErr SMap) :=
  match values with
  | [] => some (depth, .ok urlData)
  | (_, []) :: _ => none
  | (key, v :: _) :: rest =>
    match setNestedMapValue urlData key (.str v) depth with
    | (d, .error e) => some (d, .error e)
    | (d, .ok m) => decodeValuesLoop m rest d

/-- `decodeURL` on full `url.Values` entries; `none` models the
out-of-bounds panic on `value[0]`. -/
def decodeValues (values : List (String × List String)) :
    Option (Except DErr SMap) :=
  match decodeValuesLoop [] values 0 with
  | none => none
  | some (_, .error e) => some (.error e)
  | some (_, .ok m) => some (.ok (convertMap m))

/-!  The encoder.  `reflect.Value` dispatch is modelled by the inductive
`GoVal` covering the kinds the claims are about: strings, (64-bit)
integers, booleans, slices, string-keyed maps and pointers; the remaining
kinds of `encodeValue` (struct, float, unsupported) do not occur in the
claims and are outside the embedded value type. -/

/-- An encodable Go value. -/
inductive GoVal : Type where
  | str (s : String)
  | int (n : Int)
  | bool (b : Bool)
  | slice (elems : List GoVal)
  | gmap (entries : List (String × GoVal))
  | ptr (ref : Option GoVal)
deriving Repr

/-- `url.Values` as written by the encoder: every write is
`values.Set(key, v)`, which replaces the value list of `key` by the
single value `v`, so a list of `key → value` suffices. -/
abbrev UV := List (String × String)

/-- `values.Set(key, value)`. -/
def uvSet : UV → String → String → UV
  | [], key, value => [(key, value)]
  | (k, v) :: rest, key, value =>
    if k = key then (key, value) :: rest else (k, v) :: uvSet rest key value

/-- The decimal digit character for a value below ten. -/
def decDigit : Nat → Char
  | 0 => '0' | 1 => '1' | 2 => '2' | 3 => '3' | 4 => '4'
  | 5 => '5' | 6 => '6' | 7 => '7' | 8 => '8' | _ => '9'

/-- Decimal digits of `n` (the characters of `fmt.Sprintf("%d", n)` for a
non-negative value). -/
def natToDecChars (n : Nat) : List Char :=
  if _h : n < 10 then [decDigit n]
  else natToDecChars (n / 10) ++ [decDigit (n % 10)]
decreasing_by exact Nat.div_lt_self (by omega) (by omega)

/-- `fmt.Sprintf("%d", n)` for a non-negative value. -/
def natToDec (n : Nat) : String := String.mk (natToDecChars n)

/-- `fmt.Sprintf("%d", n)` for an `int`. -/
def intToDec (n : Int) : String :=
  if n < 0 then "-" ++ natToDec n.natAbs else natToDec n.natAbs

mutual
/-- `encodeValue`: dispatch on the kind of the value. -/
def encodeValue (values : UV) (fieldTag : String) : GoVal → Except String UV
  | .ptr r => encodePtr values fieldTag r
  | .str s => .ok (uvSet values fieldTag s)
  | .int n => .ok (uvSet values fieldTag (intToDec n))
  | .bool b => .ok (uvSet values fieldTag (if b then "true" else "false"))
  | .slice es => encodeSliceElems values fieldTag 0 es
  | .gmap m => encodeMapEntries values fieldTag m

/-- `encodePointer`: a nil pointer/interface encodes to nothing; otherwise
the referenced value is encoded under the same field tag. -/
def encodePtr (values : UV) (fieldTag : String) : Option GoVal → Except String UV
  | none => .ok values
  | some v => encodeValue values fieldTag v

/-- `encodeSlice`: element `j` is encoded under `fieldTag[j]`. -/
def encodeSliceElems (values : UV) (fieldTag : String) (j : Nat) :
    List GoVal → Except String UV
  | [] => .ok values
  | e :: rest =>
    match encodeValue values (fieldTag ++ "[" ++ natToDec j ++ "]") e with
    | .error err => .error err
    | .ok values2 => encodeSliceElems values2 fieldTag (j + 1) rest

/-- `encodeMap` over the entries (string keys by construction of `GoVal`):
entry `k` is encoded under `fieldTag.k`, or `k` when the tag is empty. -/
def encodeMapEntries (values : UV) (fieldTag : String) :
    List (String × GoVal) → Except String UV
  | [] => .ok values
  | (k, v) :: rest =>
    match encodeValue values (if fieldTag = "" then k else fieldTag ++ "." ++ k) v with
    | .error err => .error err
    | .ok values2 => encodeMapEntries values2 fieldTag rest
end

/-- The entry loop of `URLEncoder.Encode`. -/
def encodeLoop (values : UV) : List (String × GoVal) → Except String UV
  | [] => .ok values
  | (key, value) :: rest =>
    match encodeValue values key value with
    | .error err => .error err
    | .ok values2 => encodeLoop values2 rest

/-- `URLEncoder.Encode` on the embedded value kinds. -/
def Encode (data : List (String × GoVal)) : Except String UV :=
  encodeLoop [] data

mutual
/-- Whether a decoded value still contains a `*minSlice` (a SparseSequence)
anywhere, at any nesting depth. -/
def hasMinsVal : DVal → Bool
  | .str _ => false
  | .mins _ => true
  | .map m => hasMinsMap m
  | .seq es => hasMinsSeq es

/-- `hasMinsVal` over the entries of a map. -/
def hasMinsMap : SMap → Bool
  | [] => false
  | (_, v) :: rest => hasMinsVal v || hasMinsMap rest

/-- `hasMinsVal` over the elements of a dense slice. -/
def hasMinsSeq : List DVal → Bool
  | [] => false
  | v :: rest => hasMinsVal v || hasMinsSeq rest
end

/-- A `minSlice` element map binding each listed index to the leaf `"v"`. -/
def esOf (idxs : List Nat) : List (Int × DVal) :=
  idxs.map (fun (i : Nat) => ((i : Int), DVal.str "v"))

/-- Every character is a `\w` word character. -/
def isWordString (s : String) : Bool := s.data.all isWordChar

/-- `e` is not the recursion-depth error and not the negative-index error. -/
def neitherDepthNorNegative : DErr → Bool
  | .recursionDepthExceeded => false
  | .negativeIndex _ => false
  | _ => true

/-- `e` is not the negative-index error. -/
def notNegErr : DErr → Bool
  | .negativeIndex _ => false
  | _ => true

/-- `e` is not the recursion-depth error. -/
def notDepthErr : DErr → Bool
  | .recursionDepthExceeded => false
  | _ => true

/-!  ### Definitions for the round-trip claim.

The round-trip development works with paths as **segment lists** (the
pieces between the dots); `joinDots` renders them back to key strings.
`flatV` is the segment-level description of the pairs the encoder emits;
`rawVal` is the tree `decodeURL` builds before the sparse-slice
conversion and `stringifyVal` the tree after it; `rtVal` is the
well-formedness class of values for which the round-trip holds, and
`eqUpTo` is the claim's comparison: decoded tree versus original value,
up to scalar stringification, with mappings compared by key lookup and
sequences compared as multisets. -/

/-- Join segments with dots (inverse of `splitDots` on dot-free segments). -/
def joinDots : List String → String
  | [] => ""
  | [s] => s
  | s :: rest => s ++ "." ++ joinDots rest

/-- Lookup in a Go map of encodable values. -/
def lookupGo : List (String × GoVal) → String → Option GoVal
  | [], _ => none
  | (k, v) :: rest, key => if k = key then some v else lookupGo rest key

/-- The keys of a Go map are pairwise distinct (Go maps cannot repeat a
key; the association lists modelling them must not either). -/
def noDupKeys : List (String × GoVal) → Bool
  | [] => true
  | (k, _) :: rest => (lookupGo rest k).isNone && noDupKeys rest

/-- A usable mapping key: non-empty and all word characters. -/
def wordKey (k : String) : Bool := (!(k == "")) && isWordString k

/-- A plain mapping key: non-empty, containing no `'.'` (it must survive
`strings.Split` intact) and no `'['` (the final-segment bracket check and
the slice matcher must not fire on it). -/
def plainKey (k : String) : Bool :=
  (!(k == "")) && (!(k.data.contains '.')) && (!(k.data.contains '['))

/-- The key discipline of the round-trip class: every key is plain, and a
key holding a Sequence must moreover be all word characters — the slice
grammar's `(\w+)` capture on `key[index]` must recover exactly the key
(for `x-y[0]` it would capture only `y`). -/
def keyOK (k : String) : GoVal → Bool
  | .slice _ => plainKey k && isWordString k
  | _ => plainKey k

mutual
/-- No `Sequence` occurs in the value, at any depth. -/
def sliceFree : GoVal → Bool
  | .str _ => true
  | .int _ => true
  | .bool _ => true
  | .slice _ => false
  | .gmap m => sliceFreeMap m
  | .ptr _ => false

/-- `sliceFree` over map entries. -/
def sliceFreeMap : List (String × GoVal) → Bool
  | [] => true
  | (_, v) :: rest => sliceFree v && sliceFreeMap rest
end

mutual
/-- The round-trip class with remaining-segment budget `b`: scalars
always round-trip; a Mapping must be non-empty with distinct usable keys
(see `keyOK`) and burns one segment of budget per level; a Sequence must
be non-empty with at most 999 elements, all of which are scalars or
slice-free Mappings (a Sequence nested below a Sequence is mangled by
the decoder, and a Sequence below a Mapping below a Sequence survives as
a SparseSequence); References are excluded by the claim itself. -/
def rtVal : Nat → GoVal → Bool
  | _, .str _ => true
  | _, .int _ => true
  | _, .bool _ => true
  | b, .gmap m =>
    (!(m.isEmpty)) && decide (1 ≤ b) && rtMap (b - 1) m
  | b, .slice es =>
    (!(es.isEmpty)) && decide (es.length ≤ 999) && rtElems b es
  | _, .ptr _ => false

/-- `rtVal` over map entries, also checking the keys. -/
def rtMap : Nat → List (String × GoVal) → Bool
  | _, [] => true
  | b, (k, v) :: rest =>
    keyOK k v && (lookupGo rest k).isNone && rtVal b v && rtMap b rest

/-- `rtVal` over sequence elements, which must also be slice-free. -/
def rtElems : Nat → List GoVal → Bool
  | _, [] => true
  | b, g :: rest => sliceFree g && rtVal b g && rtElems b rest
end

/-- The round-trip class at the root: distinct usable keys, and every
value within the depth budget (one segment is used by the root key
itself). -/
def rtRoot : List (String × GoVal) → Bool
  | [] => true
  | (k, v) :: rest =>
    keyOK k v && (lookupGo rest k).isNone && rtVal (maxRecursionDepth - 1) v &&
      rtRoot rest

mutual
/-- The pairs the encoder emits for a value, with paths as segment lists:
`done` is the list of finished segments and `cur` the segment under
construction (a Sequence extends `cur` with `[j]`, a Mapping closes it). -/
def flatV (done : List String) (cur : String) : GoVal → List (List String × String)
  | .str s => [(done ++ [cur], s)]
  | .int n => [(done ++ [cur], intToDec n)]
  | .bool b => [(done ++ [cur], if b then "true" else "false")]
  | .slice es => flatS done cur 0 es
  | .gmap m => flatM (done ++ [cur]) m
  | .ptr _ => []

/-- `flatV` over the elements of a sequence, from index `j` up. -/
def flatS (done : List String) (cur : String) (j : Nat) :
    List GoVal → List (List String × String)
  | [] => []
  | e :: rest =>
    flatV done (cur ++ "[" ++ natToDec j ++ "]") e ++ flatS done cur (j + 1) rest

/-- `flatV` over the entries of a mapping. -/
def flatM (done : List String) :
    List (String × GoVal) → List (List String × String)
  | [] => []
  | (k, v) :: rest => flatV done k v ++ flatM done rest
end

/-- The segment-level pairs for a whole top-level input. -/
def flatRootSegs : List (String × GoVal) → List (List String × String)
  | [] => []
  | (k, v) :: rest => flatV [] k v ++ flatRootSegs rest

/-- The string-level pairs for a whole top-level input. -/
def flatPairs (data : List (String × GoVal)) : List (String × String) :=
  (flatRootSegs data).map (fun p => (joinDots p.1, p.2))

mutual
/-- The tree `decodeURL` builds for an encoded value before the
sparse-slice conversion: scalars stringified, sequences as `minSlice`s
keyed by their index. -/
def rawVal : GoVal → DVal
  | .str s => .str s
  | .int n => .str (intToDec n)
  | .bool b => .str (if b then "true" else "false")
  | .slice es => .mins (rawSeq 0 es)
  | .gmap m => .map (rawMap m)
  | .ptr _ => .str ""

/-- `rawVal` over sequence elements, keyed from index `j` up. -/
def rawSeq (j : Nat) : List GoVal → List (Int × DVal)
  | [] => []
  | e :: rest => ((j : Int), rawVal e) :: rawSeq (j + 1) rest

/-- `rawVal` over map entries. -/
def rawMap : List (String × GoVal) → SMap
  | [] => []
  | (k, v) :: rest => (k, rawVal v) :: rawMap rest
end

/-- The raw decoded tree for a whole top-level input. -/
def rawRoot : List (String × GoVal) → SMap
  | [] => []
  | (k, v) :: rest => (k, rawVal v) :: rawRoot rest

mutual
/-- The fully converted decoded tree for a value: scalars stringified,
sequences dense. -/
def stringifyVal : GoVal → DVal
  | .str s => .str s
  | .int n => .str (intToDec n)
  | .bool b => .str (if b then "true" else "false")
  | .slice es => .seq (stringifySeq es)
  | .gmap m => .map (stringifyMap m)
  | .ptr _ => .str ""

/-- `stringifyVal` over sequence elements. -/
def stringifySeq : List GoVal → List DVal
  | [] => []
  | e :: rest => stringifyVal e :: stringifySeq rest

/-- `stringifyVal` over map entries. -/
def stringifyMap : List (String × GoVal) → SMap
  | [] => []
  | (k, v) :: rest => (k, stringifyVal v) :: stringifyMap rest
end

/-- The expected decoded tree for a whole top-level input. -/
def stringifyRoot : List (String × GoVal) → SMap
  | [] => []
  | (k, v) :: rest => (k, stringifyVal v) :: stringifyRoot rest

/-- The pair loop of the decoder at segment level: one `setParts` call
per pair (`setNestedMapValue` minus the empty-key and depth checks that
never fire on well-formed keys; the depth counter does not influence
results). -/
def setSegsRes (m : SMap) (ps : List (List String × String)) :
    Except DErr SMap :=
  match ps with
  | [] => .ok m
  | (segs, v) :: rest =>
    match (setParts m segs (.str v)).2 with
    | .error e => .error e
    | .ok m2 => setSegsRes m2 rest

/-- Every key of the Go map occurs in the decoded map. -/
def keysBack (gm : List (String × GoVal)) (dm : SMap) : Bool :=
  match gm with
  | [] => true
  | (k, _) :: rest => (lookupStr dm k).isSome && keysBack rest dm

mutual
/-- The claim's comparison of a decoded tree with the original value:
equal up to (a) every scalar stringified, (b) mappings compared as
key-value collections, (c) sequence element order unspecified (multiset
comparison via `pick`). -/
def eqUpTo : DVal → GoVal → Bool
  | .str s, .str t => s == t
  | .str s, .int n => s == intToDec n
  | .str s, .bool b => s == (if b then "true" else "false")
  | .map dm, .gmap gm => eqMapIn dm gm && keysBack gm dm
  | .seq ds, .slice gs => eqSeq ds gs
  | _, _ => false
termination_by d _g => (2 * sizeOf d, 0)

/-- Every entry of the decoded map matches the Go map entry of the same
key. -/
def eqMapIn : SMap → List (String × GoVal) → Bool
  | [], _ => true
  | (k, v) :: rest, gm =>
    (match lookupGo gm k with
     | some g => eqUpTo v g
     | none => false) && eqMapIn rest gm
termination_by dm _gm => (2 * sizeOf dm, 0)

/-- Multiset comparison of decoded sequence elements with Go slice
elements: each decoded element consumes one matching slice element. -/
def eqSeq : List DVal → List GoVal → Bool
  | [], [] => true
  | [], _ :: _ => false
  | d :: ds, gs =>
    match pick d gs with
    | some gs2 => eqSeq ds gs2
    | none => false
termination_by ds _gs => (2 * sizeOf ds, 0)

/-- Remove the first slice element matching `d`, if any. -/
def pick (d : DVal) : List GoVal → Option (List GoVal)
  | [] => none
  | g :: gs => if eqUpTo d g then some gs else (pick d gs).map (g :: ·)
termination_by gs => (2 * sizeOf d + 1, sizeOf gs)
end

/-- The comparison at the root: decoded tree versus original input. -/
def eqRoot (dm : SMap) (data : List (String × GoVal)) : Bool :=
  eqMapIn dm data && keysBack data dm

/-!  ## Helper lemmas: which errors each decode helper can produce. -/

theorem parseSliceIndex_eq (name digits : String) :
    parseSliceIndex name digits =
      if (2 : Nat) ^ 63 ≤ digitsToNat digits.data then
        .error (.invalidIndex digits)
      else .ok (name, (digitsToNat digits.data : Int)) := by
  unfold parseSliceIndex
  by_cases hc : (2 : Nat) ^ 63 ≤ digitsToNat digits.data
  · rw [if_pos hc, if_pos hc]
  · rw [if_neg hc, if_neg hc, if_neg (by omega)]

theorem parseSliceIndex_err (name digits : String) (e : DErr)
    (h : parseSliceIndex name digits = .error e) : e = .invalidIndex digits := by
  rw [parseSliceIndex_eq] at h
  split at h
  · simp only [Except.error.injEq] at h
    exact h.symm
  · simp at h

theorem getOrCreateSlice_err (current : SMap) (name : String) :
    ∀ e, getOrCreateSlice current name = .error e →
      neitherDepthNorNegative e = true := by
  intro e h
  unfold getOrCreateSlice at h
  split at h
  · split at h
    · simp only [Except.error.injEq] at h
      subst h; rfl
    · simp at h
  · split at h
    · simp only [Except.error.injEq] at h
      subst h; rfl
    · simp at h
  · simp only [Except.error.injEq] at h
    subst h; rfl

theorem setSliceValue_err (current : SMap) (name digits : String) (value : DVal) :
    ∀ e, setSliceValue current name digits value = .error e →
      neitherDepthNorNegative e = true := by
  intro e h
  unfold setSliceValue at h
  split at h
  · rename_i e1 heq
    simp only [Except.error.injEq] at h
    subst h
    rw [parseSliceIndex_err _ _ _ heq]
    rfl
  · split at h
    · rename_i heq
      simp only [Except.error.injEq] at h
      subst h
      exact getOrCreateSlice_err _ _ _ heq
    · simp at h

theorem setFinalValue_err (current : SMap) (part : String) (value : DVal) :
    ∀ e, setFinalValue current part value = .error e →
      neitherDepthNorNegative e = true := by
  intro e h
  unfold setFinalValue at h
  split at h
  · simp only [Except.error.injEq] at h
    subst h; rfl
  · split at h
    · exact setSliceValue_err _ _ _ _ _ h
    · split at h
      · simp only [Except.error.injEq] at h
        subst h; rfl
      · simp at h

theorem setParts_err (parts : List String) :
    ∀ (current : SMap) (value : DVal) (e : DErr),
      (setParts current parts value).2 = .error e →
      neitherDepthNorNegative e = true := by
  induction parts with
  | nil => intro current value e h; simp [setParts] at h
  | cons part rest ih =>
    intro current value e h
    cases rest with
    | nil =>
      simp only [setParts] at h
      exact setFinalValue_err current part value e h
    | cons next rest2 =>
      simp only [setParts] at h
      split at h
      · -- head segment matches the slice grammar
        split at h
        · rename_i e1 heq
          simp only at h
          simp only [Except.error.injEq] at h
          subst h
          rw [parseSliceIndex_err _ _ _ heq]
          rfl
        · split at h
          · rename_i heq
            simp only at h
            simp only [Except.error.injEq] at h
            subst h
            exact getOrCreateSlice_err _ _ _ heq
          · split at h
            · split at h
              · rename_i hrec
                simp only at h
                simp only [Except.error.injEq] at h
                subst h
                exact ih _ _ _ (by rw [hrec])
              · simp at h
            · simp only at h
              simp only [Except.error.injEq] at h
              subst h; rfl
      · -- head segment is a plain Name segment
        split at h
        · split at h
          · rename_i hrec
            simp only at h
            simp only [Except.error.injEq] at h
            subst h
            exact ih _ _ _ (by rw [hrec])
          · simp at h
        · simp only at h
          simp only [Except.error.injEq] at h
          subst h; rfl

theorem setNestedMapValue_err_notNeg (current : SMap) (key : String)
    (value : DVal) (depth : Nat) :
    ∀ e, (setNestedMapValue current key value depth).2 = .error e →
      notNegErr e = true := by
  intro e h
  unfold setNestedMapValue at h
  split at h
  · split at h
    · simp only [Except.error.injEq] at h
      subst h; rfl
    · simp at h
  · split at h
    · simp only [Except.error.injEq] at h
      subst h; rfl
    · split at h
      rename_i c r heq
      simp only at h
      have := setParts_err _ _ _ e (by rw [heq]; simpa using h)
      cases e <;> simp_all [neitherDepthNorNegative, notNegErr]

theorem setNestedMapValue_err_notDepth (current : SMap) (key : String)
    (value : DVal) (depth : Nat)
    (hlen : (splitDots key).length ≤ maxRecursionDepth) :
    ∀ e, (setNestedMapValue current key value depth).2 = .error e →
      notDepthErr e = true := by
  intro e h
  unfold setNestedMapValue at h
  split at h
  · split at h
    · simp only [Except.error.injEq] at h
      subst h; rfl
    · simp at h
  · split at h
    · omega
    · split at h
      rename_i c r heq
      simp only at h
      have := setParts_err _ _ _ e (by rw [heq]; simpa using h)
      cases e <;> simp_all [neitherDepthNorNegative, notDepthErr]

theorem decodeLoop_err_notNeg (pairs : List (String × String)) :
    ∀ (m : SMap) (depth : Nat) (e : DErr),
      (decodeLoop m pairs depth).2 = .error e → notNegErr e = true := by
  induction pairs with
  | nil => intro m depth e h; simp [decodeLoop] at h
  | cons p rest ih =>
    intro m depth e h
    obtain ⟨key, value⟩ := p
    simp only [decodeLoop] at h
    split at h
    · rename_i hset
      simp only [Except.error.injEq] at h
      subst h
      exact setNestedMapValue_err_notNeg _ _ _ _ _ (by rw [hset])
    · exact ih _ _ _ h

theorem decodeLoop_err_notDepth (pairs : List (String × String))
    (hk : ∀ p ∈ pairs, (splitDots p.1).length ≤ maxRecursionDepth) :
    ∀ (m : SMap) (depth : Nat) (e : DErr),
      (decodeLoop m pairs depth).2 = .error e → notDepthErr e = true := by
  induction pairs with
  | nil => intro m depth e h; simp [decodeLoop] at h
  | cons p rest ih =>
    intro m depth e h
    obtain ⟨key, value⟩ := p
    simp only [decodeLoop] at h
    split at h
    · rename_i hset
      simp only [Except.error.injEq] at h
      subst h
      exact setNestedMapValue_err_notDepth _ _ _ _
        (hk (key, value) (by simp)) _ (by rw [hset])
    · exact ih (fun q hq => hk q (by simp [hq])) _ _ _ h

theorem decodeURL_err_notNeg (pairs : List (String × String)) (e : DErr)
    (h : decodeURL pairs = .error e) : notNegErr e = true := by
  unfold decodeURL at h
  split at h
  · rename_i hl
    simp only [Except.error.injEq] at h
    subst h
    exact decodeLoop_err_notNeg pairs _ _ _ (by rw [hl])
  · simp at h

theorem decodeURL_err_notDepth (pairs : List (String × String))
    (hk : ∀ p ∈ pairs, (splitDots p.1).length ≤ maxRecursionDepth)
    (e : DErr) (h : decodeURL pairs = .error e) : notDepthErr e = true := by
  unfold decodeURL at h
  split at h
  · rename_i hl
    simp only [Except.error.injEq] at h
    subst h
    exact decodeLoop_err_notDepth pairs hk _ _ _ (by rw [hl])
  · simp at h

/-!  ## Helper lemmas: decimal printing and the slice-grammar matcher. -/

theorem decDigit_isDigit (d : Nat) : (decDigit d).isDigit = true := by
  unfold decDigit
  split <;> decide

theorem decDigit_toNat (d : Nat) (h : d < 10) : (decDigit d).toNat = 48 + d := by
  interval_cases d <;> decide

theorem isDigit_isWordChar {c : Char} (h : c.isDigit = true) :
    isWordChar c = true := by
  simp [isWordChar, h]

theorem isDigit_ne_dot {c : Char} (h : c.isDigit = true) : c ≠ '.' := by
  rintro rfl
  exact absurd h (by decide)

theorem natToDecChars_ne_nil (n : Nat) : natToDecChars n ≠ [] := by
  unfold natToDecChars
  split
  · simp
  · simp

theorem natToDecChars_all_digits (n : Nat) :
    (natToDecChars n).all Char.isDigit = true := by
  induction n using natToDecChars.induct with
  | case1 n h => simp [natToDecChars, h, decDigit_isDigit]
  | case2 n h ih =>
    rw [natToDecChars, dif_neg h]
    simp [List.all_append, ih, decDigit_isDigit]

theorem digitsToNat_append_one (xs : List Char) (c : Char) :
    digitsToNat (xs ++ [c]) = digitsToNat xs * 10 + (c.toNat - 48) := by
  simp [digitsToNat, List.foldl_append]

theorem digitsToNat_natToDecChars (n : Nat) :
    digitsToNat (natToDecChars n) = n := by
  induction n using natToDecChars.induct with
  | case1 n h =>
    rw [natToDecChars, dif_pos h]
    show digitsToNat ([] ++ [decDigit n]) = n
    rw [digitsToNat_append_one, decDigit_toNat n h]
    simp [digitsToNat]
  | case2 n h ih =>
    rw [natToDecChars, dif_neg h]
    rw [digitsToNat_append_one, ih, decDigit_toNat (n % 10) (Nat.mod_lt _ (by omega))]
    omega

theorem takeWhile_append_all (p : Char → Bool) :
    ∀ (l1 l2 : List Char), l1.all p = true →
      (l1 ++ l2).takeWhile p = l1 ++ l2.takeWhile p := by
  intro l1 l2 h
  induction l1 with
  | nil => simp
  | cons c rest ih =>
    simp only [List.all_cons, Bool.and_eq_true] at h
    simp [List.takeWhile_cons, h.1, ih h.2]

theorem dropWhile_append_all (p : Char → Bool) :
    ∀ (l1 l2 : List Char), l1.all p = true →
      (l1 ++ l2).dropWhile p = l2.dropWhile p := by
  intro l1 l2 h
  induction l1 with
  | nil => simp
  | cons c rest ih =>
    simp only [List.all_cons, Bool.and_eq_true] at h
    simp [List.dropWhile_cons, h.1, ih h.2]

theorem takeWhile_cons_neg (p : Char → Bool) (c : Char) (l : List Char)
    (h : p c = false) : (c :: l).takeWhile p = [] := by
  simp [List.takeWhile, h]

theorem dropWhile_cons_neg (p : Char → Bool) (c : Char) (l : List Char)
    (h : p c = false) : (c :: l).dropWhile p = c :: l := by
  simp [List.dropWhile, h]

theorem matchAt_shape (name digits tail : List Char)
    (hn : name ≠ []) (hw : name.all isWordChar = true)
    (hd : digits ≠ []) (hdd : digits.all Char.isDigit = true) :
    matchAt (name ++ ('[' :: (digits ++ (']' :: tail)))) = some (name, digits) := by
  have t1 : (name ++ ('[' :: (digits ++ (']' :: tail)))).takeWhile isWordChar
      = name := by
    rw [takeWhile_append_all _ _ _ hw,
      takeWhile_cons_neg _ _ _ (by decide), List.append_nil]
  have t2 : (name ++ ('[' :: (digits ++ (']' :: tail)))).dropWhile isWordChar =
      '[' :: (digits ++ (']' :: tail)) := by
    rw [dropWhile_append_all _ _ _ hw, dropWhile_cons_neg _ _ _ (by decide)]
  have t3 : (digits ++ (']' :: tail)).takeWhile Char.isDigit = digits := by
    rw [takeWhile_append_all _ _ _ hdd,
      takeWhile_cons_neg _ _ _ (by decide), List.append_nil]
  have t4 : (digits ++ (']' :: tail)).dropWhile Char.isDigit = ']' :: tail := by
    rw [dropWhile_append_all _ _ _ hdd, dropWhile_cons_neg _ _ _ (by decide)]
  have hne : name.isEmpty = false := by
    cases name with
    | nil => exact absurd rfl hn
    | cons a l => rfl
  have hde : digits.isEmpty = false := by
    cases digits with
    | nil => exact absurd rfl hd
    | cons a l => rfl
  simp only [matchAt, t1, t2, t3, t4, hne, hde, List.head?_cons, List.tail_cons,
    Bool.false_eq_true, if_false, Option.some.injEq, reduceIte]

theorem findSliceAux_shape (name digits tail : List Char)
    (hn : name ≠ []) (hw : name.all isWordChar = true)
    (hd : digits ≠ []) (hdd : digits.all Char.isDigit = true) :
    findSliceAux (name ++ ('[' :: (digits ++ (']' :: tail)))) =
      some (name, digits) := by
  cases name with
  | nil => exact absurd rfl hn
  | cons n ns =>
    show findSliceAux (n :: (ns ++ ('[' :: (digits ++ (']' :: tail))))) = _
    unfold findSliceAux
    rw [show (n :: (ns ++ ('[' :: (digits ++ (']' :: tail))))) =
      ((n :: ns) ++ ('[' :: (digits ++ (']' :: tail)))) from rfl]
    rw [matchAt_shape (n :: ns) digits tail hn hw hd hdd]

theorem string_data_ne_nil {s : String} (h : s ≠ "") : s.data ≠ [] := by
  intro hdata
  apply h
  cases s
  simp_all

theorem findSliceMatch_exact (name digits : String)
    (hn : name ≠ "") (hw : isWordString name = true)
    (hd : digits ≠ "") (hdd : digits.data.all Char.isDigit = true) :
    findSliceMatch (name ++ "[" ++ digits ++ "]") = some (name, digits) := by
  unfold findSliceMatch
  have hdata : (name ++ "[" ++ digits ++ "]").data =
      name.data ++ ('[' :: (digits.data ++ (']' :: []))) := by
    simp [String.data_append]
  rw [hdata]
  rw [findSliceAux_shape name.data digits.data []
    (string_data_ne_nil hn) hw (string_data_ne_nil hd) hdd]
  cases name
  cases digits
  rfl

theorem splitDotsChars_no_dot (cs : List Char) (h : ('.' : Char) ∉ cs) :
    splitDotsChars cs = [cs] := by
  induction cs with
  | nil => rfl
  | cons c rest ih =>
    simp only [List.mem_cons, not_or] at h
    unfold splitDotsChars
    rw [if_neg (fun hc : c = '.' => h.1 hc.symm)]
    rw [ih h.2]

theorem splitDots_single (s : String) (h : ('.' : Char) ∉ s.data) :
    splitDots s = [s] := by
  unfold splitDots
  rw [splitDotsChars_no_dot s.data h]
  cases s
  rfl

theorem lookupInt_insertInt_self (es : List (Int × DVal)) (idx : Int) (v : DVal) :
    lookupInt (insertInt es idx v) idx = some v := by
  induction es with
  | nil => simp [insertInt, lookupInt]
  | cons q rest ih =>
    obtain ⟨k, w⟩ := q
    by_cases hk : k = idx
    · simp [insertInt, lookupInt, hk]
    · simp [insertInt, lookupInt, hk, ih]

theorem insertInt_not_mem (es : List (Int × DVal)) (idx : Int) (v : DVal)
    (h : ∀ q ∈ es, q.1 ≠ idx) : insertInt es idx v = es ++ [(idx, v)] := by
  induction es with
  | nil => rfl
  | cons q rest ih =>
    obtain ⟨k, w⟩ := q
    have hk : k ≠ idx := h (k, w) (by simp)
    simp only [insertInt, if_neg hk, List.cons_append, List.cons.injEq, true_and]
    exact ih (fun q hq => h q (by simp [hq]))

/-!  ## Helper lemmas: evaluating the setters on `name[idx]` segments. -/

theorem natToDec_data (n : Nat) : (natToDec n).data = natToDecChars n := rfl

theorem natToDec_ne_empty (n : Nat) : natToDec n ≠ "" := by
  intro h
  have hd : (natToDec n).data = [] := by rw [h]
  rw [natToDec_data] at hd
  exact natToDecChars_ne_nil n hd

theorem idxSeg_data (name : String) (idx : Nat) :
    (name ++ "[" ++ natToDec idx ++ "]").data =
      name.data ++ ('[' :: (natToDecChars idx ++ (']' :: []))) := by
  simp [String.data_append, natToDec_data]

theorem idxSeg_contains_lbracket (name : String) (idx : Nat) :
    (name ++ "[" ++ natToDec idx ++ "]").data.contains '[' = true := by
  apply List.elem_eq_true_of_mem
  rw [idxSeg_data]
  exact List.mem_append_right _ (List.mem_cons_self _ _)

theorem idxSeg_contains_rbracket (name : String) (idx : Nat) :
    (name ++ "[" ++ natToDec idx ++ "]").data.contains ']' = true := by
  apply List.elem_eq_true_of_mem
  rw [idxSeg_data]
  refine List.mem_append_right _ (List.mem_cons_of_mem _ ?_)
  exact List.mem_append_right _ (List.mem_cons_self _ _)

theorem word_no_dot {name : String} (hw : isWordString name = true) :
    ('.' : Char) ∉ name.data := by
  intro hmem
  have := List.all_eq_true.mp hw _ hmem
  exact absurd this (by decide)

theorem idxSeg_no_dot (name : String) (idx : Nat)
    (hw : isWordString name = true) :
    ('.' : Char) ∉ (name ++ "[" ++ natToDec idx ++ "]").data := by
  rw [idxSeg_data]
  intro hmem
  rcases List.mem_append.mp hmem with h | h
  · exact word_no_dot hw h
  · rcases List.mem_cons.mp h with h | h
    · exact absurd h (by decide)
    · rcases List.mem_append.mp h with h | h
      · have := List.all_eq_true.mp (natToDecChars_all_digits idx) _ h
        exact absurd this (by decide)
      · rcases List.mem_cons.mp h with h | h
        · exact absurd h (by decide)
        · simp at h

theorem idxSeg_ne_empty (name : String) (idx : Nat) :
    (name ++ "[" ++ natToDec idx ++ "]") ≠ "" := by
  intro h
  have hd : (name ++ "[" ++ natToDec idx ++ "]").data = [] := by rw [h]
  rw [idxSeg_data] at hd
  simp at hd

theorem setSliceValue_natToDec (current : SMap) (name : String) (idx : Nat)
    (value : DVal) (hidx : idx < 2 ^ 63) :
    setSliceValue current name (natToDec idx) value =
      (getOrCreateSlice current name).map
        (fun es => insertStr current name (.mins (insertInt es (idx : Int) value))) := by
  unfold setSliceValue
  rw [parseSliceIndex_eq, natToDec_data, digitsToNat_natToDecChars]
  rw [if_neg (by omega)]
  cases hg : getOrCreateSlice current name <;> simp [Except.map, hg]

theorem setFinalValue_slice (current : SMap) (name : String) (idx : Nat)
    (value : DVal) (hn : name ≠ "") (hw : isWordString name = true) :
    setFinalValue current (name ++ "[" ++ natToDec idx ++ "]") value =
      setSliceValue current name (natToDec idx) value := by
  have hmatch : findSliceMatch (name ++ "[" ++ natToDec idx ++ "]") =
      some (name, natToDec idx) :=
    findSliceMatch_exact name (natToDec idx) hn hw (natToDec_ne_empty idx)
      (by rw [natToDec_data]; exact natToDecChars_all_digits idx)
  unfold setFinalValue
  rw [hmatch]
  simp only [Option.isNone_some, Bool.and_false, Bool.false_eq_true, if_false]

theorem setNested_idxKey (current : SMap) (name : String) (idx : Nat)
    (value : DVal) (d : Nat) (hn : name ≠ "") (hw : isWordString name = true)
    (hidx : idx < 2 ^ 63) :
    setNestedMapValue current (name ++ "[" ++ natToDec idx ++ "]") value d =
      (d + 1, (getOrCreateSlice current name).map
        (fun es => insertStr current name (.mins (insertInt es (idx : Int) value)))) := by
  have hkey : (name ++ "[" ++ natToDec idx ++ "]") ≠ "" := idxSeg_ne_empty name idx
  have hsplit : splitDots (name ++ "[" ++ natToDec idx ++ "]") =
      [name ++ "[" ++ natToDec idx ++ "]"] :=
    splitDots_single _ (idxSeg_no_dot name idx hw)
  unfold setNestedMapValue
  rw [if_neg hkey, hsplit]
  rw [if_neg (by simp [maxRecursionDepth])]
  show (d + 1, setFinalValue current (name ++ "[" ++ natToDec idx ++ "]") value) = _
  rw [setFinalValue_slice current name idx value hn hw,
    setSliceValue_natToDec current name idx value hidx]

theorem lookupStr_single (k : String) (v : DVal) : lookupStr [(k, v)] k = some v := by
  simp [lookupStr]

theorem insertStr_single (k : String) (v w : DVal) :
    insertStr [(k, v)] k w = [(k, w)] := by
  simp [insertStr]

theorem getOrCreateSlice_single (name : String) (es : List (Int × DVal)) :
    getOrCreateSlice [(name, .mins es)] name =
      if maxSliceSize ≤ es.length then .error .sliceSizeExceeded else .ok es := by
  unfold getOrCreateSlice
  rw [lookupStr_single]

theorem esOf_length (idxs : List Nat) : (esOf idxs).length = idxs.length := by
  unfold esOf
  rw [List.length_map]

theorem insertInt_esOf (done : List Nat) (i : Nat) (hnew : i ∉ done) :
    insertInt (esOf done) (i : Int) (.str "v") = esOf (done ++ [i]) := by
  rw [insertInt_not_mem]
  · simp [esOf]
  · intro q hq
    simp only [esOf, List.mem_map] at hq
    obtain ⟨j, hj, rfl⟩ := hq
    simp only [ne_eq]
    intro hcast
    have hji : j = i := by exact_mod_cast hcast
    exact hnew (hji ▸ hj)

/-!  ### Round-trip helper lemmas: strings and segments. -/

theorem joinDots_cons (s : String) (rest : List String) (h : rest ≠ []) :
    joinDots (s :: rest) = s ++ "." ++ joinDots rest := by
  cases rest with
  | nil => exact absurd rfl h
  | cons a l => rfl

theorem splitDotsChars_append (a b : List Char) (h : ('.' : Char) ∉ a) :
    splitDotsChars (a ++ '.' :: b) = a :: splitDotsChars b := by
  induction a with
  | nil =>
    show splitDotsChars ('.' :: b) = [] :: splitDotsChars b
    conv_lhs => rw [splitDotsChars]
    rw [if_pos rfl]
  | cons c rest ih =>
    simp only [List.mem_cons, not_or] at h
    show splitDotsChars (c :: (rest ++ '.' :: b)) = _
    conv_lhs => rw [splitDotsChars]
    rw [if_neg (fun hc : c = '.' => h.1 hc.symm), ih h.2]

theorem splitDots_joinDots (segs : List String) (hne : segs ≠ [])
    (hdot : ∀ s ∈ segs, ('.' : Char) ∉ s.data) :
    splitDots (joinDots segs) = segs := by
  induction segs with
  | nil => exact absurd rfl hne
  | cons s rest ih =>
    cases rest with
    | nil => exact splitDots_single s (hdot s (by simp))
    | cons a l =>
      rw [joinDots_cons s _ (by simp)]
      unfold splitDots
      have hdata : (s ++ "." ++ joinDots (a :: l)).data =
          s.data ++ '.' :: (joinDots (a :: l)).data := by
        simp [String.data_append]
      rw [hdata, splitDotsChars_append _ _ (hdot s (by simp))]
      have ih2 := ih (by simp) (fun t ht => hdot t (List.mem_cons_of_mem _ ht))
      unfold splitDots at ih2
      simp only [List.map_cons]
      rw [ih2]

theorem joinDots_cons_ne_empty (s : String) (rest : List String)
    (hs : s ≠ "") : joinDots (s :: rest) ≠ "" := by
  cases rest with
  | nil => exact hs
  | cons a l =>
    intro h
    have hd : (s ++ "." ++ joinDots (a :: l)).data = [] := by
      rw [show (s ++ "." ++ joinDots (a :: l)) = joinDots (s :: a :: l) from rfl, h]
    simp [String.data_append] at hd

theorem joinDots_snoc (xs : List String) (k : String) (h : xs ≠ []) :
    joinDots (xs ++ [k]) = joinDots xs ++ "." ++ k := by
  induction xs with
  | nil => exact absurd rfl h
  | cons s rest ih =>
    cases rest with
    | nil => rfl
    | cons a l =>
      rw [show (s :: a :: l) ++ [k] = s :: ((a :: l) ++ [k]) from rfl,
        joinDots_cons s _ (by simp), ih (by simp),
        joinDots_cons s (a :: l) (by simp)]
      simp [String.append_assoc]

theorem joinDots_last_ext (xs : List String) (cur suffix : String) :
    joinDots (xs ++ [cur]) ++ suffix = joinDots (xs ++ [cur ++ suffix]) := by
  induction xs with
  | nil => rfl
  | cons s rest ih =>
    rw [show (s :: rest) ++ [cur] = s :: (rest ++ [cur]) from rfl,
      joinDots_cons s _ (by simp),
      show (s :: rest) ++ [cur ++ suffix] = s :: (rest ++ [cur ++ suffix]) from rfl,
      joinDots_cons s _ (by simp), ← ih]
    simp [String.append_assoc]

theorem natToDec_inj {a b : Nat} (h : natToDec a = natToDec b) : a = b := by
  have h2 : digitsToNat (natToDec a).data = digitsToNat (natToDec b).data := by
    rw [h]
  rw [natToDec_data, natToDec_data, digitsToNat_natToDecChars,
    digitsToNat_natToDecChars] at h2
  exact h2

/-- Cancellation for a run of `p`-characters followed by a suffix whose
head (if any) is not a `p`-character: the decomposition is unique. -/
theorem run_ext_unique (p : Char → Bool) :
    ∀ (w1 w2 x1 x2 : List Char), w1.all p = true → w2.all p = true →
      (∀ c t, x1 = c :: t → p c = false) →
      (∀ c t, x2 = c :: t → p c = false) →
      w1 ++ x1 = w2 ++ x2 → w1 = w2 ∧ x1 = x2 := by
  intro w1
  induction w1 with
  | nil =>
    intro w2 x1 x2 _ hw2 hx1 _ heq
    cases w2 with
    | nil => exact ⟨rfl, heq⟩
    | cons b t =>
      simp only [List.nil_append, List.cons_append] at heq
      have hb := hx1 b (t ++ x2) heq
      simp only [List.all_cons, Bool.and_eq_true] at hw2
      rw [hw2.1] at hb
      exact Bool.noConfusion hb
  | cons a w ih =>
    intro w2 x1 x2 hw1 hw2 hx1 hx2 heq
    cases w2 with
    | nil =>
      simp only [List.cons_append, List.nil_append] at heq
      have ha := hx2 a (w ++ x1) heq.symm
      simp only [List.all_cons, Bool.and_eq_true] at hw1
      rw [hw1.1] at ha
      exact Bool.noConfusion ha
    | cons b t =>
      simp only [List.cons_append, List.cons.injEq] at heq
      obtain ⟨rfl, heq2⟩ := heq
      simp only [List.all_cons, Bool.and_eq_true] at hw1 hw2
      obtain ⟨h1, h2⟩ := ih t x1 x2 hw1.2 hw2.2 hx1 hx2 heq2
      exact ⟨by rw [h1], h2⟩

/-!  ### Round-trip helper lemmas: association-map algebra. -/

theorem lookupStr_insertStr_self (m : SMap) (k : String) (v : DVal) :
    lookupStr (insertStr m k v) k = some v := by
  induction m with
  | nil => simp [insertStr, lookupStr]
  | cons q rest ih =>
    obtain ⟨k2, w⟩ := q
    by_cases hk : k2 = k
    · simp [insertStr, lookupStr, hk]
    · simp [insertStr, lookupStr, hk, ih]

theorem insertStr_insertStr (m : SMap) (k : String) (v w : DVal) :
    insertStr (insertStr m k v) k w = insertStr m k w := by
  induction m with
  | nil => simp [insertStr]
  | cons q rest ih =>
    obtain ⟨k2, u⟩ := q
    by_cases hk : k2 = k
    · simp [insertStr, hk]
    · simp [insertStr, hk, ih]

theorem insertStr_self (m : SMap) (k : String) (v : DVal)
    (h : lookupStr m k = some v) : insertStr m k v = m := by
  induction m with
  | nil => simp [lookupStr] at h
  | cons q rest ih =>
    obtain ⟨k2, u⟩ := q
    by_cases hk : k2 = k
    · subst hk
      have h2 : u = v := by simpa [lookupStr] using h
      simp [insertStr, h2]
    · simp only [lookupStr, if_neg hk] at h
      simp [insertStr, hk, ih h]

theorem insertStr_fresh (m : SMap) (k : String) (v : DVal)
    (h : lookupStr m k = none) : insertStr m k v = m ++ [(k, v)] := by
  induction m with
  | nil => rfl
  | cons q rest ih =>
    obtain ⟨k2, u⟩ := q
    by_cases hk : k2 = k
    · simp [lookupStr, hk] at h
    · simp only [lookupStr, if_neg hk] at h
      simp [insertStr, hk, ih h]

theorem lookupStr_append_none (a b : SMap) (k : String)
    (h : lookupStr a k = none) : lookupStr (a ++ b) k = lookupStr b k := by
  induction a with
  | nil => rfl
  | cons q rest ih =>
    obtain ⟨k2, u⟩ := q
    by_cases hk : k2 = k
    · simp [lookupStr, hk] at h
    · simp only [lookupStr, if_neg hk] at h
      simp [lookupStr, hk, ih h]

theorem lookupInt_insertInt_ne (es : List (Int × DVal)) (i j : Int)
    (v : DVal) (h : i ≠ j) :
    lookupInt (insertInt es i v) j = lookupInt es j := by
  induction es with
  | nil => simp [insertInt, lookupInt, h]
  | cons q rest ih =>
    obtain ⟨k, w⟩ := q
    by_cases hk : k = i
    · subst hk
      simp [insertInt, lookupInt, h]
    · simp [insertInt, lookupInt, hk, ih]

theorem insertInt_insertInt (es : List (Int × DVal)) (i : Int) (v w : DVal) :
    insertInt (insertInt es i v) i w = insertInt es i w := by
  induction es with
  | nil => simp [insertInt]
  | cons q rest ih =>
    obtain ⟨k, u⟩ := q
    by_cases hk : k = i
    · simp [insertInt, hk]
    · simp [insertInt, hk, ih]

theorem insertInt_self (es : List (Int × DVal)) (i : Int) (v : DVal)
    (h : lookupInt es i = some v) : insertInt es i v = es := by
  induction es with
  | nil => simp [lookupInt] at h
  | cons q rest ih =>
    obtain ⟨k, u⟩ := q
    by_cases hk : k = i
    · subst hk
      have h2 : u = v := by simpa [lookupInt] using h
      simp [insertInt, h2]
    · simp only [lookupInt, if_neg hk] at h
      simp [insertInt, hk, ih h]

theorem insertInt_fresh (es : List (Int × DVal)) (i : Int) (v : DVal)
    (h : lookupInt es i = none) : insertInt es i v = es ++ [(i, v)] := by
  induction es with
  | nil => rfl
  | cons q rest ih =>
    obtain ⟨k, u⟩ := q
    by_cases hk : k = i
    · simp [lookupInt, hk] at h
    · simp only [lookupInt, if_neg hk] at h
      simp [insertInt, hk, ih h]

theorem insertInt_length_some (es : List (Int × DVal)) (i : Int) (v : DVal)
    (h : (lookupInt es i).isSome = true) :
    (insertInt es i v).length = es.length := by
  induction es with
  | nil => simp [lookupInt] at h
  | cons q rest ih =>
    obtain ⟨k, u⟩ := q
    by_cases hk : k = i
    · simp [insertInt, hk]
    · simp only [lookupInt, if_neg hk] at h
      simp [insertInt, hk, ih h]

/-!  ### Round-trip helper lemmas: loop composition and segment shapes. -/

theorem wordKey_ne {k : String} (h : wordKey k = true) : k ≠ "" := by
  simp only [wordKey, Bool.and_eq_true] at h
  intro hk
  subst hk
  simp at h

theorem wordKey_word {k : String} (h : wordKey k = true) :
    isWordString k = true := by
  simp only [wordKey, Bool.and_eq_true] at h
  exact h.2

theorem wordString_no_lbracket {k : String} (h : isWordString k = true) :
    k.data.contains '[' = false := by
  cases hc : k.data.contains '[' with
  | false => rfl
  | true =>
    have hmem : ('[' : Char) ∈ k.data := by
      rw [List.contains] at hc
      exact List.elem_iff.mp hc
    have := List.all_eq_true.mp h _ hmem
    exact absurd this (by decide)

theorem setSegsRes_append (ps qs : List (List String × String)) :
    ∀ m : SMap, setSegsRes m (ps ++ qs) =
      match setSegsRes m ps with
      | .error e => .error e
      | .ok m2 => setSegsRes m2 qs := by
  induction ps with
  | nil => intro m; rfl
  | cons p rest ih =>
    intro m
    obtain ⟨segs, v⟩ := p
    simp only [List.cons_append, setSegsRes]
    rcases h2 : (setParts m segs (.str v)).2 with e | m2
    · rfl
    · exact ih m2

theorem getOrCreateSlice_ok (m : SMap) (k : String) (es : List (Int × DVal))
    (hm : lookupStr m k = some (.mins es) ∨ (lookupStr m k = none ∧ es = []))
    (hlen : es.length < maxSliceSize) :
    getOrCreateSlice m k = .ok es := by
  unfold getOrCreateSlice
  rcases hm with hm | ⟨hm, rfl⟩
  · rw [hm]
    show (if maxSliceSize ≤ es.length then Except.error DErr.sliceSizeExceeded
      else Except.ok es) = Except.ok es
    rw [if_neg (by omega)]
  · rw [hm]
    rw [if_neg (by simp [maxSliceSize])]

theorem lookupInt_append_none (a b : List (Int × DVal)) (i : Int)
    (h : lookupInt a i = none) : lookupInt (a ++ b) i = lookupInt b i := by
  induction a with
  | nil => rfl
  | cons q rest ih =>
    obtain ⟨k, u⟩ := q
    by_cases hk : k = i
    · simp [lookupInt, hk] at h
    · simp only [lookupInt, if_neg hk] at h
      simp [lookupInt, hk, ih h]

mutual
theorem flatV_shift (g : GoVal) : ∀ (done : List String) (cur : String),
    flatV done cur g = (flatV [] cur g).map (fun p => (done ++ p.1, p.2)) := by
  intro done cur
  cases g with
  | str s => simp [flatV]
  | int n => simp [flatV]
  | bool b => simp [flatV]
  | ptr r => simp [flatV]
  | slice es =>
    show flatS done cur 0 es = (flatS [] cur 0 es).map _
    exact flatS_shift es done cur 0
  | gmap m =>
    show flatM (done ++ [cur]) m = (flatM ([] ++ [cur]) m).map _
    rw [flatM_shift m (done ++ [cur]), flatM_shift m ([] ++ [cur])]
    simp [List.map_map, Function.comp]
termination_by (sizeOf g, 0)

theorem flatS_shift (es : List GoVal) : ∀ (done : List String) (cur : String)
    (j : Nat), flatS done cur j es = (flatS [] cur j es).map
      (fun p => (done ++ p.1, p.2)) := by
  intro done cur j
  cases es with
  | nil => rfl
  | cons e rest =>
    show flatV done (cur ++ "[" ++ natToDec j ++ "]") e ++ flatS done cur (j + 1) rest =
      (flatV [] (cur ++ "[" ++ natToDec j ++ "]") e ++ flatS [] cur (j + 1) rest).map
        (fun p => (done ++ p.1, p.2))
    rw [flatV_shift e done, flatS_shift rest done cur (j + 1), List.map_append]
termination_by (sizeOf es, 0)

theorem flatM_shift (entries : List (String × GoVal)) : ∀ (done : List String),
    flatM done entries = (flatM [] entries).map (fun p => (done ++ p.1, p.2)) := by
  intro done
  cases entries with
  | nil => rfl
  | cons q rest =>
    obtain ⟨k, v⟩ := q
    show flatV done k v ++ flatM done rest = _
    rw [flatV_shift v done, flatM_shift rest done]
    show _ = ((flatV [] k v ++ flatM [] rest).map (fun p => (done ++ p.1, p.2)))
    rw [List.map_append]
termination_by (sizeOf entries, 1)
end

theorem rtVal_gmap {b : Nat} {m : List (String × GoVal)}
    (h : rtVal b (.gmap m) = true) :
    m ≠ [] ∧ 1 ≤ b ∧ rtMap (b - 1) m = true := by
  simp only [rtVal, Bool.and_eq_true, decide_eq_true_eq, Bool.not_eq_true'] at h
  exact ⟨by
    intro hm
    subst hm
    simp at h, h.1.2, h.2⟩

theorem rtVal_slice {b : Nat} {es : List GoVal}
    (h : rtVal b (.slice es) = true) :
    es ≠ [] ∧ es.length ≤ 999 ∧ rtElems b es = true := by
  simp only [rtVal, Bool.and_eq_true, decide_eq_true_eq] at h
  exact ⟨by
    intro hm
    subst hm
    simp at h, h.1.2, h.2⟩

theorem rtMap_cons {b : Nat} {k : String} {v : GoVal}
    {rest : List (String × GoVal)} (h : rtMap b ((k, v) :: rest) = true) :
    keyOK k v = true ∧ lookupGo rest k = none ∧ rtVal b v = true ∧
      rtMap b rest = true := by
  simp only [rtMap, Bool.and_eq_true, Option.isNone_iff_eq_none] at h
  exact ⟨h.1.1.1, h.1.1.2, h.1.2, h.2⟩

theorem rtElems_cons {b : Nat} {g : GoVal} {rest : List GoVal}
    (h : rtElems b (g :: rest) = true) :
    sliceFree g = true ∧ rtVal b g = true ∧ rtElems b rest = true := by
  simp only [rtElems, Bool.and_eq_true] at h
  exact ⟨h.1.1, h.1.2, h.2⟩

theorem rtRoot_cons {k : String} {v : GoVal} {rest : List (String × GoVal)}
    (h : rtRoot ((k, v) :: rest) = true) :
    keyOK k v = true ∧ lookupGo rest k = none ∧
      rtVal (maxRecursionDepth - 1) v = true ∧ rtRoot rest = true := by
  simp only [rtRoot, Bool.and_eq_true, Option.isNone_iff_eq_none] at h
  exact ⟨h.1.1.1, h.1.1.2, h.1.2, h.2⟩

mutual
theorem flatV_key_ne_nil (g : GoVal) : ∀ (cur : String) p,
    p ∈ flatV [] cur g → p.1 ≠ [] := by
  intro cur p hp
  cases g with
  | str s => simp only [flatV, List.nil_append, List.mem_singleton] at hp; simp [hp]
  | int n => simp only [flatV, List.nil_append, List.mem_singleton] at hp; simp [hp]
  | bool b => simp only [flatV, List.nil_append, List.mem_singleton] at hp; simp [hp]
  | ptr r => simp [flatV] at hp
  | slice es => exact flatS_key_ne_nil es cur 0 p hp
  | gmap m =>
    rw [show flatV [] cur (.gmap m) = flatM ([] ++ [cur]) m from rfl,
      flatM_shift m ([] ++ [cur])] at hp
    simp only [List.mem_map] at hp
    obtain ⟨q, _, rfl⟩ := hp
    simp
termination_by (sizeOf g, 0)

theorem flatS_key_ne_nil (es : List GoVal) : ∀ (cur : String) (j : Nat) p,
    p ∈ flatS [] cur j es → p.1 ≠ [] := by
  intro cur j p hp
  cases es with
  | nil => simp [flatS] at hp
  | cons e rest =>
    rw [show flatS [] cur j (e :: rest) =
      flatV [] (cur ++ "[" ++ natToDec j ++ "]") e ++ flatS [] cur (j + 1) rest
      from rfl] at hp
    rcases List.mem_append.mp hp with h | h
    · exact flatV_key_ne_nil e _ p h
    · exact flatS_key_ne_nil rest cur (j + 1) p h
termination_by (sizeOf es, 0)

theorem flatM_key_ne_nil (entries : List (String × GoVal)) : ∀ p,
    p ∈ flatM [] entries → p.1 ≠ [] := by
  intro p hp
  cases entries with
  | nil => simp [flatM] at hp
  | cons q rest =>
    obtain ⟨k, v⟩ := q
    rw [show flatM [] ((k, v) :: rest) = flatV [] k v ++ flatM [] rest from rfl] at hp
    rcases List.mem_append.mp hp with h | h
    · exact flatV_key_ne_nil v k p h
    · exact flatM_key_ne_nil rest p h
termination_by (sizeOf entries, 1)
end

theorem flatV_ne_nil : ∀ (g : GoVal) (b : Nat) (cur : String),
    rtVal b g = true → flatV [] cur g ≠ []
  | .str s, _, cur, _ => by simp [flatV]
  | .int n, _, cur, _ => by simp [flatV]
  | .bool b2, _, cur, _ => by simp [flatV]
  | .ptr r, b, cur, hrt => by simp [rtVal] at hrt
  | .slice [], b, cur, hrt => by simp [rtVal] at hrt
  | .slice (e :: rest), b, cur, hrt => by
    have he := (rtElems_cons (rtVal_slice hrt).2.2).2.1
    show flatV [] (cur ++ "[" ++ natToDec 0 ++ "]") e ++ flatS [] cur 1 rest ≠ []
    intro hc
    rcases List.append_eq_nil.mp hc with ⟨h1, _⟩
    exact flatV_ne_nil e b (cur ++ "[" ++ natToDec 0 ++ "]") he h1
  | .gmap [], b, cur, hrt => by simp [rtVal] at hrt
  | .gmap ((k, v) :: rest), b, cur, hrt => by
    have hv := (rtMap_cons (rtVal_gmap hrt).2.2).2.2.1
    show flatM ([] ++ [cur]) ((k, v) :: rest) ≠ []
    rw [flatM_shift]
    intro hc
    rw [List.map_eq_nil_iff] at hc
    have h2 : flatV [] k v ++ flatM [] rest = [] := hc
    rcases List.append_eq_nil.mp h2 with ⟨h1, _⟩
    exact flatV_ne_nil v (b - 1) k hv h1

theorem setParts_name_step (m : SMap) (k : String) (rest : List String)
    (v : DVal) (sub : SMap) (hrest : rest ≠ [])
    (hmatch : findSliceMatch k = none)
    (hsub : lookupStr m k = some (.map sub) ∨ (lookupStr m k = none ∧ sub = [])) :
    (setParts m (k :: rest) v).2 =
      match (setParts sub rest v).2 with
      | .error e => .error e
      | .ok m2 => .ok (insertStr m k (.map m2)) := by
  cases rest with
  | nil => exact absurd rfl hrest
  | cons r1 r2 =>
    rcases hsub with hsub | ⟨hsub, rfl⟩
    · simp only [setParts, hmatch, hsub]
      rcases h2 : setParts sub (r1 :: r2) v with ⟨c, r⟩
      cases r <;> rfl
    · simp only [setParts, hmatch, hsub]
      rcases h2 : setParts ([] : SMap) (r1 :: r2) v with ⟨c, r⟩
      cases r <;> rfl

theorem setParts_idx_step (m : SMap) (k : String) (j : Nat) (rest : List String)
    (v : DVal) (es : List (Int × DVal)) (sub : SMap) (hrest : rest ≠ [])
    (hk : wordKey k = true) (hj : j < 2 ^ 63)
    (hes : lookupStr m k = some (.mins es) ∨ (lookupStr m k = none ∧ es = []))
    (hlen : es.length < maxSliceSize)
    (hsub : lookupInt es (j : Int) = some (.map sub) ∨
      (lookupInt es (j : Int) = none ∧ sub = [])) :
    (setParts m ((k ++ "[" ++ natToDec j ++ "]") :: rest) v).2 =
      match (setParts sub rest v).2 with
      | .error e => .error e
      | .ok m2 => .ok (insertStr m k (.mins (insertInt es (j : Int) (.map m2)))) := by
  cases rest with
  | nil => exact absurd rfl hrest
  | cons r1 r2 =>
    have hfm : findSliceMatch (k ++ "[" ++ natToDec j ++ "]") =
        some (k, natToDec j) :=
      findSliceMatch_exact k (natToDec j) (wordKey_ne hk) (wordKey_word hk)
        (natToDec_ne_empty j) (by rw [natToDec_data]; exact natToDecChars_all_digits j)
    have hpi : parseSliceIndex k (natToDec j) = .ok (k, (j : Int)) := by
      rw [parseSliceIndex_eq, natToDec_data, digitsToNat_natToDecChars,
        if_neg (by omega)]
    have hgo : getOrCreateSlice m k = .ok es := getOrCreateSlice_ok m k es hes hlen
    rcases hsub with hsub | ⟨hsub, rfl⟩
    · simp only [setParts, hfm, hpi, hgo, hsub]
      rcases h2 : setParts sub (r1 :: r2) v with ⟨c, r⟩
      cases r <;> rfl
    · simp only [setParts, hfm, hpi, hgo, hsub]
      rcases h2 : setParts ([] : SMap) (r1 :: r2) v with ⟨c, r⟩
      cases r <;> rfl

theorem peel_name_go (k : String) (hmatch : findSliceMatch k = none) :
    ∀ (ps : List (List String × String)) (m sub sub2 : SMap),
      (∀ p ∈ ps, ∃ t, p.1 = k :: t ∧ t ≠ []) →
      lookupStr m k = some (.map sub) →
      setSegsRes sub (ps.map (fun p => (p.1.tail, p.2))) = .ok sub2 →
      setSegsRes m ps = .ok (insertStr m k (.map sub2)) := by
  intro ps
  induction ps with
  | nil =>
    intro m sub sub2 _ hsub hinner
    simp only [List.map_nil, setSegsRes, Except.ok.injEq] at hinner
    subst hinner
    show Except.ok m = _
    rw [insertStr_self m k _ hsub]
  | cons p rest ih =>
    intro m sub sub2 hshape hsub hinner
    obtain ⟨segs, val⟩ := p
    obtain ⟨t, ht, htne⟩ := hshape (segs, val) (by simp)
    simp only at ht
    subst ht
    simp only [List.map_cons, List.tail_cons, setSegsRes] at hinner ⊢
    rw [setParts_name_step m k t (.str val) sub htne hmatch (Or.inl hsub)]
    rcases hsp : (setParts sub t (.str val)).2 with e | sub3
    · rw [hsp] at hinner
      simp at hinner
    · rw [hsp] at hinner
      show setSegsRes (insertStr m k (.map sub3)) rest =
        .ok (insertStr m k (.map sub2))
      rw [ih (insertStr m k (.map sub3)) sub3 sub2
        (fun q hq => hshape q (by simp [hq]))
        (lookupStr_insertStr_self m k (.map sub3)) hinner]
      rw [insertStr_insertStr]

theorem peel_name (k : String) (hmatch : findSliceMatch k = none)
    (ps : List (List String × String)) (m sub2 : SMap)
    (hne : ps ≠ [])
    (hshape : ∀ p ∈ ps, ∃ t, p.1 = k :: t ∧ t ≠ [])
    (hnone : lookupStr m k = none)
    (hinner : setSegsRes [] (ps.map (fun p => (p.1.tail, p.2))) = .ok sub2) :
    setSegsRes m ps = .ok (insertStr m k (.map sub2)) := by
  cases ps with
  | nil => exact absurd rfl hne
  | cons p rest =>
    obtain ⟨segs, val⟩ := p
    obtain ⟨t, ht, htne⟩ := hshape (segs, val) (by simp)
    simp only at ht
    subst ht
    simp only [List.map_cons, List.tail_cons, setSegsRes] at hinner ⊢
    rw [setParts_name_step m k t (.str val) [] htne hmatch (Or.inr ⟨hnone, rfl⟩)]
    rcases hsp : (setParts ([] : SMap) t (.str val)).2 with e | sub3
    · rw [hsp] at hinner
      simp at hinner
    · rw [hsp] at hinner
      show setSegsRes (insertStr m k (.map sub3)) rest =
        .ok (insertStr m k (.map sub2))
      rw [peel_name_go k hmatch rest (insertStr m k (.map sub3)) sub3 sub2
        (fun q hq => hshape q (by simp [hq]))
        (lookupStr_insertStr_self m k (.map sub3)) hinner]
      rw [insertStr_insertStr]

theorem peel_idx_go (k : String) (j : Nat) (hk : wordKey k = true)
    (hj : j < 2 ^ 63) :
    ∀ (ps : List (List String × String)) (m : SMap)
      (es : List (Int × DVal)) (sub sub2 : SMap),
      (∀ p ∈ ps, ∃ t, p.1 = (k ++ "[" ++ natToDec j ++ "]") :: t ∧ t ≠ []) →
      lookupStr m k = some (.mins es) →
      es.length < maxSliceSize →
      lookupInt es (j : Int) = some (.map sub) →
      setSegsRes sub (ps.map (fun p => (p.1.tail, p.2))) = .ok sub2 →
      setSegsRes m ps =
        .ok (insertStr m k (.mins (insertInt es (j : Int) (.map sub2)))) := by
  intro ps
  induction ps with
  | nil =>
    intro m es sub sub2 _ hes hlen hsub hinner
    simp only [List.map_nil, setSegsRes, Except.ok.injEq] at hinner
    subst hinner
    show Except.ok m = _
    rw [insertInt_self es _ _ hsub, insertStr_self m k _ hes]
  | cons p rest ih =>
    intro m es sub sub2 hshape hes hlen hsub hinner
    obtain ⟨segs, val⟩ := p
    obtain ⟨t, ht, htne⟩ := hshape (segs, val) (by simp)
    simp only at ht
    subst ht
    simp only [List.map_cons, List.tail_cons, setSegsRes] at hinner ⊢
    rw [setParts_idx_step m k j t (.str val) es sub htne hk hj (Or.inl hes) hlen
      (Or.inl hsub)]
    rcases hsp : (setParts sub t (.str val)).2 with e | sub3
    · rw [hsp] at hinner
      simp at hinner
    · rw [hsp] at hinner
      show setSegsRes
        (insertStr m k (.mins (insertInt es (j : Int) (.map sub3)))) rest =
        .ok (insertStr m k (.mins (insertInt es (j : Int) (.map sub2))))
      rw [ih (insertStr m k (.mins (insertInt es (j : Int) (.map sub3))))
        (insertInt es (j : Int) (.map sub3)) sub3 sub2
        (fun q hq => hshape q (by simp [hq]))
        (lookupStr_insertStr_self m k _)
        (by rw [insertInt_length_some es _ _ (by rw [hsub]; rfl)]; exact hlen)
        (lookupInt_insertInt_self es _ _) hinner]
      rw [insertStr_insertStr, insertInt_insertInt]

theorem peel_idx (k : String) (j : Nat) (hk : wordKey k = true)
    (hj : j < 2 ^ 63) (ps : List (List String × String)) (m : SMap)
    (es : List (Int × DVal)) (sub2 : SMap)
    (hne : ps ≠ [])
    (hshape : ∀ p ∈ ps, ∃ t, p.1 = (k ++ "[" ++ natToDec j ++ "]") :: t ∧ t ≠ [])
    (hes : lookupStr m k = some (.mins es) ∨ (lookupStr m k = none ∧ es = []))
    (hlen : es.length + 1 < maxSliceSize)
    (hfresh : lookupInt es (j : Int) = none)
    (hinner : setSegsRes [] (ps.map (fun p => (p.1.tail, p.2))) = .ok sub2) :
    setSegsRes m ps =
      .ok (insertStr m k (.mins (insertInt es (j : Int) (.map sub2)))) := by
  cases ps with
  | nil => exact absurd rfl hne
  | cons p rest =>
    obtain ⟨segs, val⟩ := p
    obtain ⟨t, ht, htne⟩ := hshape (segs, val) (by simp)
    simp only at ht
    subst ht
    simp only [List.map_cons, List.tail_cons, setSegsRes] at hinner ⊢
    rw [setParts_idx_step m k j t (.str val) es [] htne hk hj hes (by omega)
      (Or.inr ⟨hfresh, rfl⟩)]
    rcases hsp : (setParts ([] : SMap) t (.str val)).2 with e | sub3
    · rw [hsp] at hinner
      simp at hinner
    · rw [hsp] at hinner
      show setSegsRes
        (insertStr m k (.mins (insertInt es (j : Int) (.map sub3)))) rest =
        .ok (insertStr m k (.mins (insertInt es (j : Int) (.map sub2))))
      rw [peel_idx_go k j hk hj rest
        (insertStr m k (.mins (insertInt es (j : Int) (.map sub3))))
        (insertInt es (j : Int) (.map sub3)) sub3 sub2
        (fun q hq => hshape q (by simp [hq]))
        (lookupStr_insertStr_self m k _)
        (by rw [insertInt_fresh es _ _ hfresh]; simp; omega)
        (lookupInt_insertInt_self es _ _) hinner]
      rw [insertStr_insertStr, insertInt_insertInt]

theorem not_mem_of_contains_false {cs : List Char} {c : Char}
    (h : cs.contains c = false) : c ∉ cs := by
  intro hmem
  have := List.elem_eq_true_of_mem hmem
  rw [List.contains] at h
  rw [this] at h
  exact Bool.noConfusion h

theorem matchAt_mem_lbracket (cs : List Char) (r : List Char × List Char)
    (h : matchAt cs = some r) : ('[' : Char) ∈ cs := by
  simp only [matchAt] at h
  split at h
  · exact absurd h (by simp)
  · split at h
    · rename_i hh
      have hmem : ('[' : Char) ∈ cs.dropWhile isWordChar := by
        cases hdw : List.dropWhile isWordChar cs with
        | nil => rw [hdw] at hh; exact absurd hh (by simp)
        | cons a l =>
          rw [hdw] at hh
          simp only [List.head?_cons, Option.some.injEq] at hh
          subst hh
          exact List.mem_cons_self _ _
      exact (List.dropWhile_sublist _).mem hmem
    · exact absurd h (by simp)

theorem findSliceAux_none (cs : List Char) (h : ('[' : Char) ∉ cs) :
    findSliceAux cs = none := by
  induction cs with
  | nil => rfl
  | cons c rest ih =>
    simp only [List.mem_cons, not_or] at h
    unfold findSliceAux
    cases hm : matchAt (c :: rest) with
    | some r =>
      have := matchAt_mem_lbracket _ _ hm
      rcases List.mem_cons.mp this with h1 | h1
      · exact absurd h1 h.1
      · exact absurd h1 h.2
    | none =>
      exact ih h.2

theorem findSliceMatch_word_none (k : String) (hw : isWordString k = true) :
    findSliceMatch k = none := by
  unfold findSliceMatch
  rw [findSliceAux_none _ (not_mem_of_contains_false (wordString_no_lbracket hw))]
  rfl

theorem findSliceMatch_nolb (k : String) (hlb : k.data.contains '[' = false) :
    findSliceMatch k = none := by
  unfold findSliceMatch
  rw [findSliceAux_none _ (not_mem_of_contains_false hlb)]
  rfl

theorem plainKey_ne {k : String} (h : plainKey k = true) : k ≠ "" := by
  simp only [plainKey, Bool.and_eq_true] at h
  intro hk
  subst hk
  simp at h

theorem plainKey_no_dot {k : String} (h : plainKey k = true) :
    ('.' : Char) ∉ k.data := by
  simp only [plainKey, Bool.and_eq_true, Bool.not_eq_true'] at h
  exact not_mem_of_contains_false h.1.2

theorem plainKey_no_lb {k : String} (h : plainKey k = true) :
    k.data.contains '[' = false := by
  simp only [plainKey, Bool.and_eq_true, Bool.not_eq_true'] at h
  exact h.2

theorem keyOK_plain {k : String} {v : GoVal} (h : keyOK k v = true) :
    plainKey k = true := by
  cases v with
  | slice es =>
    simp only [keyOK, Bool.and_eq_true] at h
    exact h.1
  | str s => exact h
  | int n => exact h
  | bool b => exact h
  | gmap m => exact h
  | ptr r => exact h

theorem keyOK_word {k : String} {es : List GoVal}
    (h : keyOK k (GoVal.slice es) = true) : isWordString k = true := by
  simp only [keyOK, Bool.and_eq_true] at h
  exact h.2

theorem wordKey_mk {k : String} (hne : k ≠ "") (hw : isWordString k = true) :
    wordKey k = true := by
  simp [wordKey, hw, hne]

theorem setFinalValue_name (m : SMap) (k : String) (v : DVal)
    (hlb : k.data.contains '[' = false) (hnone : lookupStr m k = none) :
    setFinalValue m k v = .ok (insertStr m k v) := by
  unfold setFinalValue
  rw [hlb, findSliceMatch_nolb k hlb, hnone]
  simp

theorem setSegs_single_name (m : SMap) (k : String) (s : String)
    (hlb : k.data.contains '[' = false) (hnone : lookupStr m k = none) :
    setSegsRes m [([k], s)] = .ok (insertStr m k (.str s)) := by
  show (match setFinalValue m k (.str s) with
    | Except.error e => Except.error e
    | Except.ok m2 => setSegsRes m2 []) = _
  rw [setFinalValue_name m k (.str s) hlb hnone]
  rfl

theorem setSegs_single_idx (m : SMap) (k : String) (j : Nat) (s : String)
    (es : List (Int × DVal))
    (hk : wordKey k = true) (hj : j < 2 ^ 63)
    (hes : lookupStr m k = some (.mins es) ∨ (lookupStr m k = none ∧ es = []))
    (hlen : es.length < maxSliceSize) :
    setSegsRes m [([k ++ "[" ++ natToDec j ++ "]"], s)] =
      .ok (insertStr m k (.mins (insertInt es (j : Int) (.str s)))) := by
  show (match setFinalValue m (k ++ "[" ++ natToDec j ++ "]") (.str s) with
    | Except.error e => Except.error e
    | Except.ok m2 => setSegsRes m2 []) = _
  rw [setFinalValue_slice m k j (.str s) (wordKey_ne hk) (wordKey_word hk),
    setSliceValue_natToDec m k j (.str s) hj,
    getOrCreateSlice_ok m k es hes hlen]
  rfl

theorem lookupGo_none_forall {l : List (String × GoVal)} {k : String}
    (h : lookupGo l k = none) : ∀ p ∈ l, p.1 ≠ k := by
  induction l with
  | nil => intro p hp; simp at hp
  | cons q rest ih =>
    obtain ⟨k2, v⟩ := q
    by_cases hk : k2 = k
    · simp [lookupGo, hk] at h
    · simp only [lookupGo, if_neg hk] at h
      intro p hp
      rcases List.mem_cons.mp hp with rfl | hp2
      · exact hk
      · exact ih h p hp2

theorem flatM_ne_nil {entries : List (String × GoVal)} {b : Nat}
    (hne : entries ≠ []) (hrt : rtMap b entries = true) :
    flatM [] entries ≠ [] := by
  cases entries with
  | nil => exact absurd rfl hne
  | cons q rest =>
    obtain ⟨k, v⟩ := q
    obtain ⟨_, _, hv, _⟩ := rtMap_cons hrt
    show flatV [] k v ++ flatM [] rest ≠ []
    intro hc
    rcases List.append_eq_nil.mp hc with ⟨h1, _⟩
    exact flatV_ne_nil v b k hv h1

mutual
/-- Decoding the pairs the encoder emits for a well-formed value under a
fresh word key adds exactly the raw decoded subtree at that key. -/
theorem decode_val : ∀ (g : GoVal) (b : Nat) (k : String) (m : SMap),
    rtVal b g = true → plainKey k = true →
    (∀ es2, g = GoVal.slice es2 → isWordString k = true) →
    lookupStr m k = none →
    setSegsRes m (flatV [] k g) = .ok (insertStr m k (rawVal g))
  | .str s, _, k, m, _, hk, _, hnone =>
    setSegs_single_name m k s (plainKey_no_lb hk) hnone
  | .int n, _, k, m, _, hk, _, hnone =>
    setSegs_single_name m k (intToDec n) (plainKey_no_lb hk) hnone
  | .bool b2, _, k, m, _, hk, _, hnone =>
    setSegs_single_name m k (if b2 then "true" else "false")
      (plainKey_no_lb hk) hnone
  | .ptr r, b, k, m, hrt, hk, _, hnone => by simp [rtVal] at hrt
  | .gmap entries, b, k, m, hrt, hk, _, hnone => by
    obtain ⟨hne, hb, hmap⟩ := rtVal_gmap hrt
    show setSegsRes m (flatM ([] ++ [k]) entries) = _
    rw [flatM_shift entries ([] ++ [k])]
    simp only [List.nil_append, List.singleton_append]
    refine peel_name k (findSliceMatch_nolb k (plainKey_no_lb hk)) _ m
      (rawMap entries) ?_ ?_ hnone ?_
    · intro hc
      rw [List.map_eq_nil_iff] at hc
      exact flatM_ne_nil hne hmap hc
    · intro q hq
      simp only [List.mem_map] at hq
      obtain ⟨p0, hp0, rfl⟩ := hq
      exact ⟨p0.1, rfl, flatM_key_ne_nil entries p0 hp0⟩
    · have hdetach : ((flatM [] entries).map (fun p => (k :: p.1, p.2))).map
          (fun p => (p.1.tail, p.2)) = flatM [] entries := by
        simp [List.map_map, Function.comp_def]
      rw [hdetach]
      have hdm := decode_map entries (b - 1) [] hmap (fun p _ => rfl)
      simpa using hdm
  | .slice es, b, k, m, hrt, hk, hkw, hnone => by
    obtain ⟨hne, hlen, hel⟩ := rtVal_slice hrt
    have hkk : wordKey k = true := wordKey_mk (plainKey_ne hk) (hkw es rfl)
    show setSegsRes m (flatS [] k 0 es) = _
    have hde := decode_elems es b 0 k m [] hel hkk (by omega) rfl
      (fun i _ => rfl) (Or.inl ⟨rfl, hnone, rfl⟩) (Or.inl hne)
    simpa using hde
termination_by g => sizeOf g

/-- Decoding the pairs for a well-formed map's entries, all of whose keys
are fresh in the accumulated map, appends the raw entries. -/
theorem decode_map : ∀ (entries : List (String × GoVal)) (b : Nat) (macc : SMap),
    rtMap b entries = true →
    (∀ p ∈ entries, lookupStr macc p.1 = none) →
    setSegsRes macc (flatM [] entries) = .ok (macc ++ rawMap entries)
  | [], _, macc, _, _ => by
    show Except.ok macc = _
    simp [rawMap]
  | (k, v) :: rest, b, macc, hrt, hfresh => by
    obtain ⟨hk, hnod, hv, hrest⟩ := rtMap_cons hrt
    show setSegsRes macc (flatV [] k v ++ flatM [] rest) = _
    rw [setSegsRes_append]
    rw [decode_val v b k macc hv (keyOK_plain hk)
      (fun es2 heq => by subst heq; exact keyOK_word hk)
      (hfresh (k, v) (by simp))]
    show setSegsRes (insertStr macc k (rawVal v)) (flatM [] rest) = _
    rw [insertStr_fresh macc k _ (hfresh (k, v) (by simp))]
    have hfresh2 : ∀ p ∈ rest, lookupStr (macc ++ [(k, rawVal v)]) p.1 = none := by
      intro p hp
      rw [lookupStr_append_none _ _ _ (hfresh p (by simp [hp]))]
      have hne : k ≠ p.1 := Ne.symm (lookupGo_none_forall hnod p hp)
      simp [lookupStr, hne]
    rw [decode_map rest b (macc ++ [(k, rawVal v)]) hrest hfresh2]
    simp [rawMap]
termination_by entries => sizeOf entries

/-- Decoding the pairs for the elements of a well-formed sequence from
index `j` on, into a slice currently holding exactly the indices below
`j`, appends the raw elements. -/
theorem decode_elems : ∀ (es : List GoVal) (b j : Nat) (k : String) (m : SMap)
    (acc : List (Int × DVal)),
    rtElems b es = true → wordKey k = true → j + es.length ≤ 999 →
    acc.length = j →
    (∀ i : Nat, j ≤ i → lookupInt acc (i : Int) = none) →
    ((j = 0 ∧ lookupStr m k = none ∧ acc = []) ∨
      lookupStr m k = some (.mins acc)) →
    (es ≠ [] ∨ lookupStr m k = some (.mins acc)) →
    setSegsRes m (flatS [] k j es) =
      .ok (insertStr m k (.mins (acc ++ rawSeq j es)))
  | [], _, j, k, m, acc, _, _, _, _, _, _, hprog => by
    have hsome : lookupStr m k = some (.mins acc) := by
      rcases hprog with h | h
      · exact absurd rfl h
      · exact h
    show Except.ok m = _
    rw [show rawSeq j [] = ([] : List (Int × DVal)) from rfl, List.append_nil,
      insertStr_self m k _ hsome]
  | e :: rest, b, j, k, m, acc, hrt, hk, hbound, hlen, hfresh, hacc, _ => by
    obtain ⟨hsf, hrv, hrest⟩ := rtElems_cons hrt
    have hj63 : j < 2 ^ 63 :=
      lt_of_lt_of_le (show j < 1000 by
        simp only [List.length_cons] at hbound; omega) (by decide)
    have hlen1000 : acc.length < maxSliceSize := by
      simp only [List.length_cons] at hbound
      simp only [maxSliceSize]
      omega
    have hes2 : lookupStr m k = some (.mins acc) ∨
        (lookupStr m k = none ∧ acc = []) := by
      rcases hacc with ⟨_, h1, h2⟩ | h
      · exact Or.inr ⟨h1, h2⟩
      · exact Or.inl h
    show setSegsRes m
      (flatV [] (k ++ "[" ++ natToDec j ++ "]") e ++ flatS [] k (j + 1) rest) = _
    rw [setSegsRes_append]
    suffices h : setSegsRes m (flatV [] (k ++ "[" ++ natToDec j ++ "]") e) =
        .ok (insertStr m k (.mins (insertInt acc (j : Int) (rawVal e)))) by
      rw [h]
      show setSegsRes (insertStr m k (.mins (insertInt acc (j : Int) (rawVal e))))
        (flatS [] k (j + 1) rest) = _
      rw [insertInt_fresh acc _ _ (hfresh j (le_refl j))]
      have hf2 : ∀ i : Nat, j + 1 ≤ i →
          lookupInt (acc ++ [((j : Int), rawVal e)]) (i : Int) = none := by
        intro i hi
        rw [lookupInt_append_none _ _ _ (hfresh i (by omega))]
        have hne : ((j : Int)) ≠ (i : Int) := by
          intro hc
          have hji : j = i := Int.natCast_inj.mp hc
          omega
        simp [lookupInt, hne]
      rw [decode_elems rest b (j + 1) k
        (insertStr m k (.mins (acc ++ [((j : Int), rawVal e)])))
        (acc ++ [((j : Int), rawVal e)]) hrest hk
        (by simp only [List.length_cons] at hbound; omega)
        (by simp [hlen]) hf2 (Or.inr (lookupStr_insertStr_self m k _))
        (Or.inr (lookupStr_insertStr_self m k _))]
      rw [insertStr_insertStr]
      rw [show rawSeq j (e :: rest) = ((j : Int), rawVal e) :: rawSeq (j + 1) rest
        from rfl]
      rw [List.append_assoc]
      rfl
    cases e with
    | str s =>
      exact setSegs_single_idx m k j s acc hk hj63 hes2 hlen1000
    | int n =>
      exact setSegs_single_idx m k j (intToDec n) acc hk hj63 hes2 hlen1000
    | bool b2 =>
      exact setSegs_single_idx m k j (if b2 then "true" else "false") acc hk
        hj63 hes2 hlen1000
    | ptr r => simp [sliceFree] at hsf
    | slice es2 => simp [sliceFree] at hsf
    | gmap mm =>
      obtain ⟨hmne, hbb, hmm⟩ := rtVal_gmap hrv
      show setSegsRes m (flatM ([] ++ [k ++ "[" ++ natToDec j ++ "]"]) mm) = _
      rw [flatM_shift mm ([] ++ [k ++ "[" ++ natToDec j ++ "]"])]
      simp only [List.nil_append, List.singleton_append]
      refine peel_idx k j hk hj63 _ m acc (rawMap mm) ?_ ?_ hes2 ?_
        (hfresh j (le_refl j)) ?_
      · intro hc
        rw [List.map_eq_nil_iff] at hc
        exact flatM_ne_nil hmne hmm hc
      · intro q hq
        simp only [List.mem_map] at hq
        obtain ⟨p0, hp0, rfl⟩ := hq
        exact ⟨p0.1, rfl, flatM_key_ne_nil mm p0 hp0⟩
      · simp only [List.length_cons] at hbound
        simp only [maxSliceSize]
        omega
      · have hdetach : ((flatM [] mm).map
            (fun p => ((k ++ "[" ++ natToDec j ++ "]") :: p.1, p.2))).map
            (fun p => (p.1.tail, p.2)) = flatM [] mm := by
          simp [List.map_map, Function.comp_def]
        rw [hdetach]
        have hdm := decode_map mm (b - 1) [] hmm (fun p _ => rfl)
        simpa using hdm
termination_by es => sizeOf es
end

/-!  ### Encoder correspondence: helper lemmas. -/

theorem string_eq_of_data {a b : String} (h : a.data = b.data) : a = b := by
  cases a
  cases b
  simp_all

theorem str_append_empty (s : String) : s ++ "" = s :=
  string_eq_of_data (by simp [String.data_append])

theorem uvSet_fresh (values : UV) (key v : String)
    (h : ∀ p ∈ values, p.1 ≠ key) :
    uvSet values key v = values ++ [(key, v)] := by
  induction values with
  | nil => rfl
  | cons q rest ih =>
    obtain ⟨k2, u⟩ := q
    have hk : k2 ≠ key := h (k2, u) (by simp)
    simp [uvSet, hk, ih (fun p hp => h p (by simp [hp]))]

theorem rtMap_mem {b : Nat} {entries : List (String × GoVal)}
    (h : rtMap b entries = true) :
    ∀ p ∈ entries, keyOK p.1 p.2 = true ∧ rtVal b p.2 = true := by
  induction entries with
  | nil => intro p hp; simp at hp
  | cons q rest ih =>
    obtain ⟨k, v⟩ := q
    obtain ⟨hk, _, hv, hrest⟩ := rtMap_cons h
    intro p hp
    rcases List.mem_cons.mp hp with rfl | hp2
    · exact ⟨hk, hv⟩
    · exact ih hrest p hp2

theorem rtElems_mem {b : Nat} {es : List GoVal} (h : rtElems b es = true) :
    ∀ e ∈ es, sliceFree e = true ∧ rtVal b e = true := by
  induction es with
  | nil => intro e he; simp at he
  | cons g rest ih =>
    obtain ⟨hsf, hg, hrest⟩ := rtElems_cons h
    intro e he
    rcases List.mem_cons.mp he with rfl | he2
    · exact ⟨hsf, hg⟩
    · exact ih hrest e he2

theorem rtRoot_mem {data : List (String × GoVal)} (h : rtRoot data = true) :
    ∀ p ∈ data, keyOK p.1 p.2 = true ∧ rtVal (maxRecursionDepth - 1) p.2 = true := by
  induction data with
  | nil => intro p hp; simp at hp
  | cons q rest ih =>
    obtain ⟨k, v⟩ := q
    obtain ⟨hk, _, hv, hrest⟩ := rtRoot_cons h
    intro p hp
    rcases List.mem_cons.mp hp with rfl | hp2
    · exact ⟨hk, hv⟩
    · exact ih hrest p hp2

theorem lookupGo_self {b : Nat} {entries : List (String × GoVal)}
    (h : rtMap b entries = true) :
    ∀ p ∈ entries, lookupGo entries p.1 = some p.2 := by
  induction entries with
  | nil => intro p hp; simp at hp
  | cons q rest ih =>
    obtain ⟨k, v⟩ := q
    obtain ⟨_, hnod, _, hrest⟩ := rtMap_cons h
    intro p hp
    rcases List.mem_cons.mp hp with rfl | hp2
    · simp [lookupGo]
    · have hne : p.1 ≠ k := lookupGo_none_forall hnod p hp2
      simp only [lookupGo, if_neg (Ne.symm hne)]
      exact ih hrest p hp2

theorem flatM_mem (entries : List (String × GoVal)) (done : List String) :
    ∀ q ∈ flatM done entries, ∃ p ∈ entries, q ∈ flatV done p.1 p.2 := by
  induction entries with
  | nil => intro q hq; exact absurd hq (List.not_mem_nil q)
  | cons kv rest ih =>
    obtain ⟨k, v⟩ := kv
    intro q hq
    rw [show flatM done ((k, v) :: rest) = flatV done k v ++ flatM done rest
      from rfl] at hq
    rcases List.mem_append.mp hq with h | h
    · exact ⟨(k, v), by simp, h⟩
    · obtain ⟨p, hp, hmem⟩ := ih q h
      exact ⟨p, by simp [hp], hmem⟩

theorem flatS_mem (es : List GoVal) : ∀ (done : List String) (cur : String)
    (j : Nat) (q : List String × String), q ∈ flatS done cur j es →
    ∃ i e, j ≤ i ∧ e ∈ es ∧ q ∈ flatV done (cur ++ "[" ++ natToDec i ++ "]") e := by
  induction es with
  | nil => intro done cur j q hq; exact absurd hq (List.not_mem_nil q)
  | cons e rest ih =>
    intro done cur j q hq
    rw [show flatS done cur j (e :: rest) =
      flatV done (cur ++ "[" ++ natToDec j ++ "]") e ++ flatS done cur (j + 1) rest
      from rfl] at hq
    rcases List.mem_append.mp hq with h | h
    · exact ⟨j, e, le_refl j, by simp, h⟩
    · obtain ⟨i, e2, hi, he2, hmem⟩ := ih done cur (j + 1) q h
      exact ⟨i, e2, by omega, by simp [he2], hmem⟩

theorem flatRootSegs_mem (data : List (String × GoVal)) :
    ∀ q ∈ flatRootSegs data, ∃ p ∈ data, q ∈ flatV [] p.1 p.2 := by
  induction data with
  | nil => intro q hq; exact absurd hq (List.not_mem_nil q)
  | cons kv rest ih =>
    obtain ⟨k, v⟩ := kv
    intro q hq
    rw [show flatRootSegs ((k, v) :: rest) = flatV [] k v ++ flatRootSegs rest
      from rfl] at hq
    rcases List.mem_append.mp hq with h | h
    · exact ⟨(k, v), by simp, h⟩
    · obtain ⟨p, hp, hmem⟩ := ih q h
      exact ⟨p, by simp [hp], hmem⟩

theorem flatRootSegs_eq (data : List (String × GoVal)) :
    flatRootSegs data = flatM [] data := by
  induction data with
  | nil => rfl
  | cons kv rest ih =>
    obtain ⟨k, v⟩ := kv
    show flatV [] k v ++ flatRootSegs rest = flatM [] ((k, v) :: rest)
    rw [ih]
    rfl

theorem rawRoot_eq (data : List (String × GoVal)) :
    rawRoot data = rawMap data := by
  induction data with
  | nil => rfl
  | cons kv rest ih =>
    obtain ⟨k, v⟩ := kv
    show (k, rawVal v) :: rawRoot rest = rawMap ((k, v) :: rest)
    rw [ih]
    rfl

theorem stringifyRoot_eq (data : List (String × GoVal)) :
    stringifyRoot data = stringifyMap data := by
  induction data with
  | nil => rfl
  | cons kv rest ih =>
    obtain ⟨k, v⟩ := kv
    show (k, stringifyVal v) :: stringifyRoot rest = stringifyMap ((k, v) :: rest)
    rw [ih]
    rfl

mutual
/-- The first path segment beyond `done` of any pair emitted for a
round-trip value is `cur` possibly extended by one `[index]` group, and
is exactly `cur` when the value is slice-free. -/
theorem flatV_seg : ∀ (g : GoVal) (b : Nat) (done : List String) (cur : String)
    (q : List String × String), rtVal b g = true → q ∈ flatV done cur g →
    ∃ ext tail, q.1 = done ++ (cur ++ ext) :: tail ∧
      (ext = "" ∨ ∃ n : Nat, ext = "[" ++ natToDec n ++ "]") ∧
      (sliceFree g = true → ext = "")
  | .str s, _, done, cur, q, _, hq => by
    rw [show flatV done cur (.str s) = [(done ++ [cur], s)] from rfl] at hq
    rw [List.mem_singleton.mp hq]
    exact ⟨"", [], by simp [str_append_empty], Or.inl rfl, fun _ => rfl⟩
  | .int n, _, done, cur, q, _, hq => by
    rw [show flatV done cur (.int n) = [(done ++ [cur], intToDec n)] from rfl] at hq
    rw [List.mem_singleton.mp hq]
    exact ⟨"", [], by simp [str_append_empty], Or.inl rfl, fun _ => rfl⟩
  | .bool b2, _, done, cur, q, _, hq => by
    rw [show flatV done cur (.bool b2) =
      [(done ++ [cur], if b2 then "true" else "false")] from rfl] at hq
    rw [List.mem_singleton.mp hq]
    exact ⟨"", [], by simp [str_append_empty], Or.inl rfl, fun _ => rfl⟩
  | .ptr r, b, done, cur, q, hrt, hq => by simp [rtVal] at hrt
  | .gmap entries, b, done, cur, q, hrt, hq => by
    obtain ⟨_, _, hmap⟩ := rtVal_gmap hrt
    obtain ⟨seg, tail, h1⟩ := flatM_seg entries (b - 1) (done ++ [cur]) q hmap hq
    refine ⟨"", seg :: tail, ?_, Or.inl rfl, fun _ => rfl⟩
    rw [h1, str_append_empty]
    simp
  | .slice es, b, done, cur, q, hrt, hq => by
    obtain ⟨_, _, hel⟩ := rtVal_slice hrt
    obtain ⟨n, tail, h1⟩ := flatS_seg es b 0 done cur q hel hq
    refine ⟨"[" ++ natToDec n ++ "]", tail, ?_, Or.inr ⟨n, rfl⟩, ?_⟩
    · rw [h1]
      simp [String.append_assoc]
    · intro hsf
      simp [sliceFree] at hsf
termination_by g => sizeOf g

/-- The first path segment of a pair emitted for a round-trip sequence
element is `cur` extended by that element's `[index]` group. -/
theorem flatS_seg : ∀ (es : List GoVal) (b j : Nat) (done : List String)
    (cur : String) (q : List String × String), rtElems b es = true →
    q ∈ flatS done cur j es →
    ∃ n tail, q.1 = done ++ (cur ++ "[" ++ natToDec n ++ "]") :: tail
  | [], _, _, done, cur, q, _, hq => absurd hq (List.not_mem_nil q)
  | e :: rest, b, j, done, cur, q, hrt, hq => by
    obtain ⟨hsf, he, hrest⟩ := rtElems_cons hrt
    rw [show flatS done cur j (e :: rest) =
      flatV done (cur ++ "[" ++ natToDec j ++ "]") e ++ flatS done cur (j + 1) rest
      from rfl] at hq
    rcases List.mem_append.mp hq with h | h
    · obtain ⟨ext, tail, h1, _, hsfe⟩ :=
        flatV_seg e b done (cur ++ "[" ++ natToDec j ++ "]") q he h
      rw [hsfe hsf, str_append_empty] at h1
      exact ⟨j, tail, h1⟩
    · exact flatS_seg rest b (j + 1) done cur q hrest h
termination_by es => sizeOf es

/-- Every pair emitted for a round-trip mapping extends `done` by at
least one segment. -/
theorem flatM_seg : ∀ (entries : List (String × GoVal)) (b : Nat)
    (done : List String) (q : List String × String), rtMap b entries = true →
    q ∈ flatM done entries → ∃ seg tail, q.1 = done ++ seg :: tail
  | [], _, done, q, _, hq => absurd hq (List.not_mem_nil q)
  | (k, v) :: rest, b, done, q, hrt, hq => by
    obtain ⟨_, _, hv, hrest⟩ := rtMap_cons hrt
    rw [show flatM done ((k, v) :: rest) = flatV done k v ++ flatM done rest
      from rfl] at hq
    rcases List.mem_append.mp hq with h | h
    · obtain ⟨ext, tail, h1, _, _⟩ := flatV_seg v b done k q hv h
      exact ⟨k ++ ext, tail, h1⟩
    · exact flatM_seg rest b done q hrest h
termination_by entries => sizeOf entries
end

/-- Rendering a path is injective on its head decomposition: a shared
`done` prefix cancels. -/
theorem joinDots_append_cancel : ∀ (done : List String) (s1 s2 : String)
    (t1 t2 : List String),
    joinDots (done ++ s1 :: t1) = joinDots (done ++ s2 :: t2) →
    joinDots (s1 :: t1) = joinDots (s2 :: t2) := by
  intro done
  induction done with
  | nil => intro s1 s2 t1 t2 h; exact h
  | cons d rest ih =>
    intro s1 s2 t1 t2 h
    rw [show (d :: rest) ++ s1 :: t1 = d :: (rest ++ s1 :: t1) from rfl,
      show (d :: rest) ++ s2 :: t2 = d :: (rest ++ s2 :: t2) from rfl,
      joinDots_cons d _ (by simp), joinDots_cons d _ (by simp)] at h
    have hd := congrArg String.data h
    simp only [String.data_append, List.append_assoc] at hd
    have hd2 := List.append_cancel_left hd
    simp only [List.singleton_append, List.cons.injEq, true_and] at hd2
    exact ih s1 s2 t1 t2 (string_eq_of_data hd2)

/-- The characters of a rendered path: head segment, then a dot and the
rest (when any). -/
theorem joinDots_cons_data (s : String) (t : List String) :
    (joinDots (s :: t)).data =
      s.data ++ (if t.isEmpty then [] else '.' :: (joinDots t).data) := by
  cases t with
  | nil => simp [joinDots]
  | cons a l =>
    rw [joinDots_cons s (a :: l) (by simp)]
    simp [String.data_append]

/-- Paths whose first fresh segments start with different plain keys
render to different strings: a plain key is a maximal run of
non-`'.'`/non-`'['` characters, and what follows it (an `[index]` group,
a dot, or nothing) cannot extend the run. -/
theorem flat_keys_ne_map (done : List String) (k1 k2 ext1 ext2 : String)
    (t1 t2 : List String) (hk1 : plainKey k1 = true) (hk2 : plainKey k2 = true)
    (hne : k1 ≠ k2)
    (hext1 : ext1 = "" ∨ ∃ n : Nat, ext1 = "[" ++ natToDec n ++ "]")
    (hext2 : ext2 = "" ∨ ∃ n : Nat, ext2 = "[" ++ natToDec n ++ "]") :
    joinDots (done ++ (k1 ++ ext1) :: t1) ≠ joinDots (done ++ (k2 ++ ext2) :: t2) := by
  intro h
  have h1 := joinDots_append_cancel done _ _ _ _ h
  have hd := congrArg String.data h1
  rw [joinDots_cons_data, joinDots_cons_data] at hd
  simp only [String.data_append, List.append_assoc] at hd
  have hnw1 : ∀ c t, (ext1.data ++ (if t1.isEmpty then [] else '.' :: (joinDots t1).data)) = c :: t →
      (!(c == '.' || c == '[')) = false := by
    intro c t hct
    rcases hext1 with rfl | ⟨n, rfl⟩
    · simp only [show ("" : String).data = [] from rfl, List.nil_append] at hct
      cases t1 with
      | nil => simp at hct
      | cons a l =>
        simp at hct
        obtain ⟨h1, -⟩ := hct
        subst h1
        decide
    · have hdata : (("[" ++ natToDec n ++ "]") : String).data =
          '[' :: ((natToDec n).data ++ [']']) := by
        simp [String.data_append]
      rw [hdata] at hct
      cases hct
      decide
  have hnw2 : ∀ c t, (ext2.data ++ (if t2.isEmpty then [] else '.' :: (joinDots t2).data)) = c :: t →
      (!(c == '.' || c == '[')) = false := by
    intro c t hct
    rcases hext2 with rfl | ⟨n, rfl⟩
    · simp only [show ("" : String).data = [] from rfl, List.nil_append] at hct
      cases t2 with
      | nil => simp at hct
      | cons a l =>
        simp at hct
        obtain ⟨h1, -⟩ := hct
        subst h1
        decide
    · have hdata : (("[" ++ natToDec n ++ "]") : String).data =
          '[' :: ((natToDec n).data ++ [']']) := by
        simp [String.data_append]
      rw [hdata] at hct
      cases hct
      decide
  have hw1 : k1.data.all (fun c => !(c == '.' || c == '[')) = true := by
    rw [List.all_eq_true]
    intro c hc
    have hd1 : ¬ c = '.' := fun h0 => plainKey_no_dot hk1 (h0 ▸ hc)
    have hl1 : ¬ c = '[' := fun h0 =>
      not_mem_of_contains_false (plainKey_no_lb hk1) (h0 ▸ hc)
    simp [hd1, hl1]
  have hw2 : k2.data.all (fun c => !(c == '.' || c == '[')) = true := by
    rw [List.all_eq_true]
    intro c hc
    have hd1 : ¬ c = '.' := fun h0 => plainKey_no_dot hk2 (h0 ▸ hc)
    have hl1 : ¬ c = '[' := fun h0 =>
      not_mem_of_contains_false (plainKey_no_lb hk2) (h0 ▸ hc)
    simp [hd1, hl1]
  obtain ⟨heq, _⟩ := run_ext_unique (fun c => !(c == '.' || c == '['))
    k1.data k2.data _ _ hw1 hw2 hnw1 hnw2 hd
  exact hne (string_eq_of_data heq)

/-- Paths whose first fresh segments carry different sequence indices on
the same stem render to different strings. -/
theorem flat_keys_ne_idx (done : List String) (cur : String) (j1 j2 : Nat)
    (t1 t2 : List String) (hne : j1 ≠ j2) :
    joinDots (done ++ (cur ++ "[" ++ natToDec j1 ++ "]") :: t1) ≠
      joinDots (done ++ (cur ++ "[" ++ natToDec j2 ++ "]") :: t2) := by
  intro h
  have h1 := joinDots_append_cancel done _ _ _ _ h
  have hd := congrArg String.data h1
  rw [joinDots_cons_data, joinDots_cons_data] at hd
  simp only [String.data_append, List.append_assoc] at hd
  have hd2 := List.append_cancel_left hd
  simp only [show ("[" : String).data = ['['] from rfl,
    show ("]" : String).data = [']'] from rfl, List.singleton_append,
    List.cons.injEq, true_and] at hd2
  have hdig1 : (natToDec j1).data.all Char.isDigit = true := by
    rw [natToDec_data]; exact natToDecChars_all_digits j1
  have hdig2 : (natToDec j2).data.all Char.isDigit = true := by
    rw [natToDec_data]; exact natToDecChars_all_digits j2
  have hnd : ∀ (t0 : List String) c t,
      (']' :: (if t0.isEmpty then [] else '.' :: (joinDots t0).data)) = c :: t →
      Char.isDigit c = false := by
    intro t0 c t hct
    cases hct
    decide
  obtain ⟨heq, _⟩ := run_ext_unique Char.isDigit (natToDec j1).data
    (natToDec j2).data _ _ hdig1 hdig2 (hnd t1) (hnd t2) hd2
  exact hne (natToDec_inj (string_eq_of_data heq))

mutual
/-- Encoding a round-trip value under a field tag that renders its path,
into a `url.Values` whose keys are all distinct from the value's flat
keys, appends exactly the flat pairs. -/
theorem enc_val : ∀ (g : GoVal) (b : Nat) (done : List String) (cur : String)
    (values : UV), rtVal b g = true →
    joinDots (done ++ [cur]) ≠ "" →
    (∀ p ∈ values, ∀ q ∈ flatV done cur g, p.1 ≠ joinDots q.1) →
    encodeValue values (joinDots (done ++ [cur])) g =
      .ok (values ++ (flatV done cur g).map (fun q => (joinDots q.1, q.2)))
  | .str s, _, done, cur, values, _, _, hfr => by
    simp only [encodeValue]
    rw [uvSet_fresh values _ s (fun p hp => hfr p hp (done ++ [cur], s)
      (by rw [show flatV done cur (.str s) = [(done ++ [cur], s)] from rfl]; simp))]
    rfl
  | .int n, _, done, cur, values, _, _, hfr => by
    simp only [encodeValue]
    rw [uvSet_fresh values _ (intToDec n) (fun p hp => hfr p hp (done ++ [cur], intToDec n)
      (by rw [show flatV done cur (.int n) = [(done ++ [cur], intToDec n)] from rfl]; simp))]
    rfl
  | .bool b2, _, done, cur, values, _, _, hfr => by
    simp only [encodeValue]
    rw [uvSet_fresh values _ (if b2 then "true" else "false") (fun p hp =>
      hfr p hp (done ++ [cur], if b2 then "true" else "false")
      (by rw [show flatV done cur (.bool b2) =
        [(done ++ [cur], if b2 then "true" else "false")] from rfl]; simp))]
    rfl
  | .ptr r, b, done, cur, values, hrt, _, _ => by simp [rtVal] at hrt
  | .slice es, b, done, cur, values, hrt, hjd, hfr => by
    obtain ⟨_, _, hel⟩ := rtVal_slice hrt
    simp only [encodeValue]
    exact enc_slice es b done cur 0 values hel hjd hfr
  | .gmap entries, b, done, cur, values, hrt, hjd, hfr => by
    obtain ⟨_, _, hmap⟩ := rtVal_gmap hrt
    simp only [encodeValue]
    exact enc_map entries (b - 1) (done ++ [cur]) values hmap (by simp) hjd hfr
termination_by g => sizeOf g

/-- `enc_val` over the elements of a round-trip sequence from index `j`. -/
theorem enc_slice : ∀ (es : List GoVal) (b : Nat) (done : List String)
    (cur : String) (j : Nat) (values : UV), rtElems b es = true →
    joinDots (done ++ [cur]) ≠ "" →
    (∀ p ∈ values, ∀ q ∈ flatS done cur j es, p.1 ≠ joinDots q.1) →
    encodeSliceElems values (joinDots (done ++ [cur])) j es =
      .ok (values ++ (flatS done cur j es).map (fun q => (joinDots q.1, q.2)))
  | [], _, done, cur, j, values, _, _, _ => by
    rw [show flatS done cur j ([] : List GoVal) = [] from rfl]
    simp [encodeSliceElems]
  | e :: rest, b, done, cur, j, values, hrt, hjd, hfr => by
    obtain ⟨hsf, he, hrest⟩ := rtElems_cons hrt
    simp only [encodeSliceElems]
    have htag : joinDots (done ++ [cur]) ++ "[" ++ natToDec j ++ "]" =
        joinDots (done ++ [cur ++ "[" ++ natToDec j ++ "]"]) := by
      have h0 := joinDots_last_ext done cur ("[" ++ natToDec j ++ "]")
      calc joinDots (done ++ [cur]) ++ "[" ++ natToDec j ++ "]"
          = joinDots (done ++ [cur]) ++ ("[" ++ natToDec j ++ "]") := by
            simp [String.append_assoc]
        _ = joinDots (done ++ [cur ++ ("[" ++ natToDec j ++ "]")]) := h0
        _ = joinDots (done ++ [cur ++ "[" ++ natToDec j ++ "]"]) := by
            simp [String.append_assoc]
    rw [htag]
    have hjd2 : joinDots (done ++ [cur ++ "[" ++ natToDec j ++ "]"]) ≠ "" := by
      intro h0
      have hd := congrArg String.data h0
      rw [← htag] at hd
      simp [String.data_append] at hd
    have hfr1 : ∀ p ∈ values, ∀ q ∈ flatV done (cur ++ "[" ++ natToDec j ++ "]") e,
        p.1 ≠ joinDots q.1 :=
      fun p hp q hq => hfr p hp q (List.mem_append_left _ hq)
    rw [enc_val e b done (cur ++ "[" ++ natToDec j ++ "]") values he hjd2 hfr1]
    show encodeSliceElems
      (values ++ (flatV done (cur ++ "[" ++ natToDec j ++ "]") e).map
        (fun q => (joinDots q.1, q.2)))
      (joinDots (done ++ [cur])) (j + 1) rest = _
    have hfr2 : ∀ p ∈ values ++ (flatV done (cur ++ "[" ++ natToDec j ++ "]") e).map
        (fun q => (joinDots q.1, q.2)),
        ∀ q ∈ flatS done cur (j + 1) rest, p.1 ≠ joinDots q.1 := by
      intro p hp q hq
      rcases List.mem_append.mp hp with hpv | hpn
      · exact hfr p hpv q (List.mem_append_right _ hq)
      · simp only [List.mem_map] at hpn
        obtain ⟨q1, hq1, rfl⟩ := hpn
        show joinDots q1.1 ≠ joinDots q.1
        obtain ⟨i, e2, hi, he2, hq2⟩ := flatS_mem rest done cur (j + 1) q hq
        obtain ⟨hsf2, hrv2⟩ := rtElems_mem hrest e2 he2
        obtain ⟨ext1, t1, hp1, _, hb1⟩ :=
          flatV_seg e b done (cur ++ "[" ++ natToDec j ++ "]") q1 he hq1
        obtain ⟨ext2, t2, hp2, _, hb2⟩ :=
          flatV_seg e2 b done (cur ++ "[" ++ natToDec i ++ "]") q hrv2 hq2
        rw [hb1 hsf, str_append_empty] at hp1
        rw [hb2 hsf2, str_append_empty] at hp2
        rw [hp1, hp2]
        exact flat_keys_ne_idx done cur j i t1 t2 (by omega)
    rw [enc_slice rest b done cur (j + 1) _ hrest hjd hfr2]
    rw [show flatS done cur j (e :: rest) =
      flatV done (cur ++ "[" ++ natToDec j ++ "]") e ++ flatS done cur (j + 1) rest
      from rfl]
    simp [List.map_append, List.append_assoc]
termination_by es => sizeOf es

/-- `enc_val` over the entries of a round-trip mapping. -/
theorem enc_map : ∀ (entries : List (String × GoVal)) (b : Nat)
    (done : List String) (values : UV), rtMap b entries = true →
    done ≠ [] → joinDots done ≠ "" →
    (∀ p ∈ values, ∀ q ∈ flatM done entries, p.1 ≠ joinDots q.1) →
    encodeMapEntries values (joinDots done) entries =
      .ok (values ++ (flatM done entries).map (fun q => (joinDots q.1, q.2)))
  | [], _, done, values, _, _, _, _ => by
    rw [show flatM done ([] : List (String × GoVal)) = [] from rfl]
    simp [encodeMapEntries]
  | (k, v) :: rest, b, done, values, hrt, hdone, hjd, hfr => by
    obtain ⟨hk, hnod, hv, hrest⟩ := rtMap_cons hrt
    simp only [encodeMapEntries]
    rw [if_neg hjd]
    have htag : joinDots done ++ "." ++ k = joinDots (done ++ [k]) :=
      (joinDots_snoc done k hdone).symm
    rw [htag]
    have hjd2 : joinDots (done ++ [k]) ≠ "" := by
      intro h0
      have hd := congrArg String.data h0
      rw [← htag] at hd
      simp [String.data_append] at hd
    have hfr1 : ∀ p ∈ values, ∀ q ∈ flatV done k v, p.1 ≠ joinDots q.1 :=
      fun p hp q hq => hfr p hp q (List.mem_append_left _ hq)
    rw [enc_val v b done k values hv hjd2 hfr1]
    show encodeMapEntries
      (values ++ (flatV done k v).map (fun q => (joinDots q.1, q.2)))
      (joinDots done) rest = _
    have hfr2 : ∀ p ∈ values ++ (flatV done k v).map (fun q => (joinDots q.1, q.2)),
        ∀ q ∈ flatM done rest, p.1 ≠ joinDots q.1 := by
      intro p hp q hq
      rcases List.mem_append.mp hp with hpv | hpn
      · exact hfr p hpv q (List.mem_append_right _ hq)
      · simp only [List.mem_map] at hpn
        obtain ⟨q1, hq1, rfl⟩ := hpn
        show joinDots q1.1 ≠ joinDots q.1
        obtain ⟨⟨k2, v2⟩, hp2, hq2⟩ := flatM_mem rest done q hq
        obtain ⟨hk2, hv2⟩ := rtMap_mem hrest (k2, v2) hp2
        have hkne : k ≠ k2 := Ne.symm (lookupGo_none_forall hnod (k2, v2) hp2)
        obtain ⟨ext1, t1, he1, hb1, _⟩ := flatV_seg v b done k q1 hv hq1
        obtain ⟨ext2, t2, he2, hb2, _⟩ := flatV_seg v2 b done k2 q hv2 hq2
        rw [he1, he2]
        exact flat_keys_ne_map done k k2 ext1 ext2 t1 t2 (keyOK_plain hk)
          (keyOK_plain hk2) hkne hb1 hb2
    rw [enc_map rest b done
      (values ++ (flatV done k v).map (fun q => (joinDots q.1, q.2))) hrest
      hdone hjd hfr2]
    rw [show flatM done ((k, v) :: rest) = flatV done k v ++ flatM done rest
      from rfl]
    simp [List.map_append, List.append_assoc]
termination_by entries => sizeOf entries
end

/-- The top-level entry loop of `Encode` appends the flat pairs of every
entry of a round-trip input. -/
theorem enc_loop : ∀ (data : List (String × GoVal)) (values : UV),
    rtRoot data = true →
    (∀ p ∈ values, ∀ q ∈ flatRootSegs data, p.1 ≠ joinDots q.1) →
    encodeLoop values data =
      .ok (values ++ (flatRootSegs data).map (fun q => (joinDots q.1, q.2))) := by
  intro data
  induction data with
  | nil =>
    intro values _ _
    rw [show flatRootSegs [] = [] from rfl]
    simp [encodeLoop]
  | cons kv rest ih =>
    obtain ⟨k, v⟩ := kv
    intro values hrt hfr
    obtain ⟨hk, hnod, hv, hrest⟩ := rtRoot_cons hrt
    simp only [encodeLoop]
    have hjd : joinDots ([] ++ [k]) ≠ "" := fun h0 => plainKey_ne (keyOK_plain hk) h0
    have hfr1 : ∀ p ∈ values, ∀ q ∈ flatV [] k v, p.1 ≠ joinDots q.1 :=
      fun p hp q hq => hfr p hp q (List.mem_append_left _ hq)
    have h1 := enc_val v (maxRecursionDepth - 1) [] k values hv hjd hfr1
    rw [show joinDots ([] ++ [k]) = k from rfl] at h1
    rw [h1]
    show encodeLoop (values ++ (flatV [] k v).map (fun q => (joinDots q.1, q.2)))
      rest = _
    have hfr2 : ∀ p ∈ values ++ (flatV [] k v).map (fun q => (joinDots q.1, q.2)),
        ∀ q ∈ flatRootSegs rest, p.1 ≠ joinDots q.1 := by
      intro p hp q hq
      rcases List.mem_append.mp hp with hpv | hpn
      · exact hfr p hpv q (List.mem_append_right _ hq)
      · simp only [List.mem_map] at hpn
        obtain ⟨q1, hq1, rfl⟩ := hpn
        show joinDots q1.1 ≠ joinDots q.1
        obtain ⟨⟨k2, v2⟩, hp2, hq2⟩ := flatRootSegs_mem rest q hq
        obtain ⟨hk2, hv2⟩ := rtRoot_mem hrest (k2, v2) hp2
        have hkne : k ≠ k2 := Ne.symm (lookupGo_none_forall hnod (k2, v2) hp2)
        obtain ⟨ext1, t1, he1, hb1, _⟩ :=
          flatV_seg v (maxRecursionDepth - 1) [] k q1 hv hq1
        obtain ⟨ext2, t2, he2, hb2, _⟩ :=
          flatV_seg v2 (maxRecursionDepth - 1) [] k2 q hv2 hq2
        rw [he1, he2]
        exact flat_keys_ne_map [] k k2 ext1 ext2 t1 t2 (keyOK_plain hk)
          (keyOK_plain hk2) hkne hb1 hb2
    rw [ih _ hrest hfr2]
    rw [show flatRootSegs ((k, v) :: rest) = flatV [] k v ++ flatRootSegs rest
      from rfl]
    simp [List.map_append, List.append_assoc]

/-- `Encode` succeeds on every round-trip input and produces exactly the
flat pairs. -/
theorem encode_rt (data : List (String × GoVal)) (h : rtRoot data = true) :
    Encode data = .ok (flatPairs data) := by
  have h1 := enc_loop data [] h (fun p hp => absurd hp (List.not_mem_nil p))
  simpa [Encode, flatPairs] using h1

mutual
/-- Every path emitted for a round-trip value has nonempty, dot-free
segments and stays within the segment budget. -/
theorem flatV_good : ∀ (g : GoVal) (b : Nat) (done : List String) (cur : String)
    (q : List String × String), rtVal b g = true →
    (∀ s ∈ done, s ≠ "" ∧ ('.' : Char) ∉ s.data) →
    (cur ≠ "" ∧ ('.' : Char) ∉ cur.data) →
    q ∈ flatV done cur g →
    (∀ s ∈ q.1, s ≠ "" ∧ ('.' : Char) ∉ s.data) ∧
      q.1.length ≤ done.length + 1 + b
  | .str s, b, done, cur, q, _, hdone, hcur, hq => by
    rw [show flatV done cur (.str s) = [(done ++ [cur], s)] from rfl] at hq
    rw [List.mem_singleton.mp hq]
    refine ⟨fun s2 hs2 => ?_, ?_⟩
    · rcases List.mem_append.mp hs2 with h | h
      · exact hdone s2 h
      · rw [List.mem_singleton.mp h]; exact hcur
    · simp only [List.length_append, List.length_cons, List.length_nil]
      omega
  | .int n, b, done, cur, q, _, hdone, hcur, hq => by
    rw [show flatV done cur (.int n) = [(done ++ [cur], intToDec n)] from rfl] at hq
    rw [List.mem_singleton.mp hq]
    refine ⟨fun s2 hs2 => ?_, ?_⟩
    · rcases List.mem_append.mp hs2 with h | h
      · exact hdone s2 h
      · rw [List.mem_singleton.mp h]; exact hcur
    · simp only [List.length_append, List.length_cons, List.length_nil]
      omega
  | .bool b2, b, done, cur, q, _, hdone, hcur, hq => by
    rw [show flatV done cur (.bool b2) =
      [(done ++ [cur], if b2 then "true" else "false")] from rfl] at hq
    rw [List.mem_singleton.mp hq]
    refine ⟨fun s2 hs2 => ?_, ?_⟩
    · rcases List.mem_append.mp hs2 with h | h
      · exact hdone s2 h
      · rw [List.mem_singleton.mp h]; exact hcur
    · simp only [List.length_append, List.length_cons, List.length_nil]
      omega
  | .ptr r, b, done, cur, q, hrt, _, _, _ => by simp [rtVal] at hrt
  | .gmap entries, b, done, cur, q, hrt, hdone, hcur, hq => by
    obtain ⟨_, hb, hmap⟩ := rtVal_gmap hrt
    have hdone2 : ∀ s ∈ done ++ [cur], s ≠ "" ∧ ('.' : Char) ∉ s.data := by
      intro s hs
      rcases List.mem_append.mp hs with h | h
      · exact hdone s h
      · rw [List.mem_singleton.mp h]; exact hcur
    obtain ⟨hgood, hlen⟩ := flatM_good entries (b - 1) (done ++ [cur]) q hmap hdone2 hq
    refine ⟨hgood, ?_⟩
    simp only [List.length_append, List.length_cons, List.length_nil] at hlen
    omega
  | .slice es, b, done, cur, q, hrt, hdone, hcur, hq => by
    obtain ⟨_, _, hel⟩ := rtVal_slice hrt
    exact flatS_good es b 0 done cur q hel hdone hcur hq
termination_by g => sizeOf g

/-- `flatV_good` over sequence elements. -/
theorem flatS_good : ∀ (es : List GoVal) (b j : Nat) (done : List String)
    (cur : String) (q : List String × String), rtElems b es = true →
    (∀ s ∈ done, s ≠ "" ∧ ('.' : Char) ∉ s.data) →
    (cur ≠ "" ∧ ('.' : Char) ∉ cur.data) →
    q ∈ flatS done cur j es →
    (∀ s ∈ q.1, s ≠ "" ∧ ('.' : Char) ∉ s.data) ∧
      q.1.length ≤ done.length + 1 + b
  | [], _, _, done, cur, q, _, _, _, hq => absurd hq (List.not_mem_nil q)
  | e :: rest, b, j, done, cur, q, hrt, hdone, hcur, hq => by
    obtain ⟨hsf, he, hrest⟩ := rtElems_cons hrt
    rw [show flatS done cur j (e :: rest) =
      flatV done (cur ++ "[" ++ natToDec j ++ "]") e ++ flatS done cur (j + 1) rest
      from rfl] at hq
    rcases List.mem_append.mp hq with h | h
    · refine flatV_good e b done (cur ++ "[" ++ natToDec j ++ "]") q he hdone
        ⟨?_, ?_⟩ h
      · intro h0
        have hd := congrArg String.data h0
        simp [String.data_append] at hd
      · intro hmem
        simp only [String.data_append, List.mem_append, natToDec_data] at hmem
        rcases hmem with ((h2 | h2) | h2) | h2
        · exact hcur.2 h2
        · simp at h2
        · exact absurd (List.all_eq_true.mp (natToDecChars_all_digits j) _ h2)
            (by decide)
        · simp at h2
    · exact flatS_good rest b (j + 1) done cur q hrest hdone hcur h
termination_by es => sizeOf es

/-- `flatV_good` over mapping entries. -/
theorem flatM_good : ∀ (entries : List (String × GoVal)) (b : Nat)
    (done : List String) (q : List String × String), rtMap b entries = true →
    (∀ s ∈ done, s ≠ "" ∧ ('.' : Char) ∉ s.data) →
    q ∈ flatM done entries →
    (∀ s ∈ q.1, s ≠ "" ∧ ('.' : Char) ∉ s.data) ∧
      q.1.length ≤ done.length + 1 + b
  | [], _, done, q, _, _, hq => absurd hq (List.not_mem_nil q)
  | (k, v) :: rest, b, done, q, hrt, hdone, hq => by
    obtain ⟨hk, _, hv, hrest⟩ := rtMap_cons hrt
    rw [show flatM done ((k, v) :: rest) = flatV done k v ++ flatM done rest
      from rfl] at hq
    rcases List.mem_append.mp hq with h | h
    · exact flatV_good v b done k q hv hdone
        ⟨plainKey_ne (keyOK_plain hk), plainKey_no_dot (keyOK_plain hk)⟩ h
    · exact flatM_good rest b done q hrest hdone h
termination_by entries => sizeOf entries
end

/-- Every path of the flat encoding of a round-trip input is usable by the
decoder: nonempty, made of nonempty dot-free segments, within the depth
limit. -/
theorem flatRootSegs_good (data : List (String × GoVal))
    (h : rtRoot data = true) :
    ∀ q ∈ flatRootSegs data, q.1 ≠ [] ∧
      (∀ s ∈ q.1, s ≠ "" ∧ ('.' : Char) ∉ s.data) ∧
      q.1.length ≤ maxRecursionDepth := by
  intro q hq
  obtain ⟨⟨k, v⟩, hp, hqv⟩ := flatRootSegs_mem data q hq
  obtain ⟨hk, hv⟩ := rtRoot_mem h (k, v) hp
  obtain ⟨hgood, hlen⟩ := flatV_good v (maxRecursionDepth - 1) [] k q hv
    (by intro s hs; simp at hs) ⟨plainKey_ne (keyOK_plain hk), plainKey_no_dot (keyOK_plain hk)⟩ hqv
  refine ⟨?_, hgood, ?_⟩
  · obtain ⟨ext, tail, he, _, _⟩ := flatV_seg v (maxRecursionDepth - 1) [] k q hv hqv
    rw [he]
    simp
  · simp only [List.length_nil, maxRecursionDepth] at hlen ⊢
    omega

/-- On pairs rendered from usable segment paths, the decoder's pair loop
computes exactly the segment-level loop (the depth counter never causes a
failure because every path is within the limit). -/
theorem decodeLoop_snd : ∀ (ps : List (List String × String)) (m : SMap) (d : Nat),
    (∀ q ∈ ps, q.1 ≠ [] ∧ (∀ s ∈ q.1, s ≠ "" ∧ ('.' : Char) ∉ s.data) ∧
      q.1.length ≤ maxRecursionDepth) →
    (decodeLoop m (ps.map (fun p => (joinDots p.1, p.2))) d).2 = setSegsRes m ps := by
  intro ps
  induction ps with
  | nil => intro m d _; rfl
  | cons q rest ih =>
    obtain ⟨segs, v⟩ := q
    intro m d hgood
    obtain ⟨hne0, hsegs0, hlen0⟩ := hgood (segs, v) (by simp)
    have hne : segs ≠ [] := hne0
    have hsegs : ∀ s ∈ segs, s ≠ "" ∧ ('.' : Char) ∉ s.data := hsegs0
    have hlen : segs.length ≤ maxRecursionDepth := hlen0
    simp only [List.map_cons, decodeLoop]
    have hke : joinDots segs ≠ "" := by
      cases segs with
      | nil => exact absurd rfl hne
      | cons s0 t0 => exact joinDots_cons_ne_empty s0 t0 (hsegs s0 (by simp)).1
    have hsplit : splitDots (joinDots segs) = segs :=
      splitDots_joinDots segs hne (fun s hs => (hsegs s hs).2)
    simp only [setNestedMapValue, if_neg hke, hsplit,
      if_neg (by omega : ¬ maxRecursionDepth < segs.length)]
    rcases hsp : setParts m segs (.str v) with ⟨c, r⟩
    cases r with
    | error e => simp [setSegsRes, hsp]
    | ok m2 =>
      show (decodeLoop m2 (List.map (fun p => (joinDots p.1, p.2)) rest) (d + c)).2 =
        setSegsRes m ((segs, v) :: rest)
      rw [ih m2 (d + c) (fun q2 hq2 => hgood q2 (by simp [hq2]))]
      simp [setSegsRes, hsp]

/-- The full-`url.Values` loop on singleton value lists is the
plain-pairs loop. -/
theorem decodeValuesLoop_singles : ∀ (ps : List (String × String)) (m : SMap)
    (d : Nat), decodeValuesLoop m (ps.map (fun p => (p.1, [p.2]))) d =
      some (decodeLoop m ps d) := by
  intro ps
  induction ps with
  | nil => intro m d; rfl
  | cons q rest ih =>
    obtain ⟨k, v⟩ := q
    intro m d
    simp only [List.map_cons, decodeValuesLoop, decodeLoop]
    rcases h : setNestedMapValue m k (.str v) d with ⟨d2, r⟩
    cases r with
    | error e => rfl
    | ok m2 => exact ih m2 d2

/-- `Decode` on `url.Values` with one value per key agrees with the
first-value decoder. -/
theorem decodeValues_singles (ps : List (String × String)) :
    decodeValues (ps.map (fun p => (p.1, [p.2]))) = some (decodeURL ps) := by
  simp only [decodeValues, decodeValuesLoop_singles, decodeURL]
  rcases h : decodeLoop [] ps 0 with ⟨d, r⟩
  cases r <;> rfl

theorem rtRoot_eq (data : List (String × GoVal)) :
    rtRoot data = rtMap (maxRecursionDepth - 1) data := by
  induction data with
  | nil => rfl
  | cons kv rest ih =>
    obtain ⟨k, v⟩ := kv
    simp only [rtRoot, rtMap, ih]

mutual
/-- On slice-free values the raw decoded tree is already the final tree. -/
theorem raw_sf : ∀ (g : GoVal), sliceFree g = true → rawVal g = stringifyVal g
  | .str s, _ => rfl
  | .int n, _ => rfl
  | .bool b, _ => rfl
  | .ptr r, h => by simp [sliceFree] at h
  | .slice es, h => by simp [sliceFree] at h
  | .gmap m, h => by
    show DVal.map (rawMap m) = DVal.map (stringifyMap m)
    rw [raw_sf_map m (by simpa [sliceFree] using h)]
termination_by g => sizeOf g

/-- `raw_sf` over mapping entries. -/
theorem raw_sf_map : ∀ (m : List (String × GoVal)), sliceFreeMap m = true →
    rawMap m = stringifyMap m
  | [], _ => rfl
  | (k, v) :: rest, h => by
    have h2 : sliceFree v = true ∧ sliceFreeMap rest = true := by
      simpa [sliceFreeMap] using h
    show (k, rawVal v) :: rawMap rest = (k, stringifyVal v) :: stringifyMap rest
    rw [raw_sf v h2.1, raw_sf_map rest h2.2]
termination_by m => sizeOf m
end

/-- Collapsing a raw sequence of slice-free elements keeps the stringified
elements in order. -/
theorem rawSeq_stringify : ∀ (es : List GoVal) (j : Nat),
    (∀ e ∈ es, sliceFree e = true) → toSlice (rawSeq j es) = stringifySeq es := by
  intro es
  induction es with
  | nil => intro j _; rfl
  | cons e rest ih =>
    intro j h
    show rawVal e :: toSlice (rawSeq (j + 1) rest) =
      stringifyVal e :: stringifySeq rest
    rw [raw_sf e (h e (by simp)), ih (j + 1) (fun e2 he2 => h e2 (by simp [he2]))]

mutual
/-- The sparse-slice conversion pass turns the raw decoded tree of a
round-trip value into its final stringified tree. -/
theorem conv_raw : ∀ (g : GoVal) (b : Nat), rtVal b g = true →
    convertVal (rawVal g) = stringifyVal g
  | .str s, _, _ => by
    show convertVal (.str s) = .str s
    simp [convertVal]
  | .int n, _, _ => by
    show convertVal (.str (intToDec n)) = .str (intToDec n)
    simp [convertVal]
  | .bool b2, _, _ => by
    show convertVal (.str (if b2 then "true" else "false")) =
      .str (if b2 then "true" else "false")
    simp [convertVal]
  | .ptr r, b, hrt => by simp [rtVal] at hrt
  | .gmap m, b, hrt => by
    obtain ⟨_, _, hmap⟩ := rtVal_gmap hrt
    show convertVal (.map (rawMap m)) = .map (stringifyMap m)
    simp only [convertVal]
    rw [conv_rawMap m (b - 1) hmap]
  | .slice es, b, hrt => by
    obtain ⟨_, _, hel⟩ := rtVal_slice hrt
    show convertVal (.mins (rawSeq 0 es)) = .seq (stringifySeq es)
    simp only [convertVal]
    rw [rawSeq_stringify es 0 (fun e he => (rtElems_mem hel e he).1)]
termination_by g => sizeOf g

/-- `conv_raw` over mapping entries. -/
theorem conv_rawMap : ∀ (m : List (String × GoVal)) (b : Nat), rtMap b m = true →
    convertMap (rawMap m) = stringifyMap m
  | [], _, _ => rfl
  | (k, v) :: rest, b, h => by
    obtain ⟨_, _, hv, hrest⟩ := rtMap_cons h
    show convertMap ((k, rawVal v) :: rawMap rest) =
      (k, stringifyVal v) :: stringifyMap rest
    simp only [convertMap]
    rw [conv_raw v b hv, conv_rawMap rest b hrest]
termination_by m => sizeOf m
end

/-- Decoding the encoder's output for a round-trip input yields exactly
the stringified tree. -/
theorem decodeURL_flat (data : List (String × GoVal)) (h : rtRoot data = true) :
    decodeURL (flatPairs data) = .ok (stringifyMap data) := by
  have hsegs : setSegsRes [] (flatRootSegs data) = .ok (rawMap data) := by
    rw [flatRootSegs_eq]
    have h2 := decode_map data (maxRecursionDepth - 1) []
      (by rw [← rtRoot_eq]; exact h) (fun p _ => rfl)
    simpa using h2
  have hsnd := decodeLoop_snd (flatRootSegs data) [] 0 (flatRootSegs_good data h)
  rw [hsegs] at hsnd
  simp only [decodeURL]
  rw [show flatPairs data = (flatRootSegs data).map (fun p => (joinDots p.1, p.2))
    from rfl]
  rcases h0 : decodeLoop [] ((flatRootSegs data).map (fun p => (joinDots p.1, p.2))) 0
    with ⟨d2, r⟩
  rw [h0] at hsnd
  have hr : r = .ok (rawMap data) := hsnd
  subst hr
  rw [h0]
  show Except.ok (convertMap (rawMap data)) = _
  rw [conv_rawMap data (maxRecursionDepth - 1) (by rw [← rtRoot_eq]; exact h)]

/-- Looking up a key in the stringified tree mirrors the Go map lookup. -/
theorem lookupStr_stringifyMap (m : List (String × GoVal)) (k : String) :
    lookupStr (stringifyMap m) k = (lookupGo m k).map stringifyVal := by
  induction m with
  | nil => rfl
  | cons kv rest ih =>
    obtain ⟨k2, v⟩ := kv
    show lookupStr ((k2, stringifyVal v) :: stringifyMap rest) k = _
    by_cases hk : k2 = k
    · simp [lookupStr, lookupGo, hk]
    · simp [lookupStr, lookupGo, hk, ih]

theorem keysBack_of (gm : List (String × GoVal)) (dm : SMap)
    (h : ∀ p ∈ gm, (lookupStr dm p.1).isSome = true) : keysBack gm dm = true := by
  induction gm with
  | nil => rfl
  | cons kv rest ih =>
    obtain ⟨k, v⟩ := kv
    simp only [keysBack, Bool.and_eq_true]
    exact ⟨h (k, v) (by simp), ih (fun p hp => h p (by simp [hp]))⟩

mutual
/-- The stringified tree of a round-trip value compares equal to the
value under the claim's comparison. -/
theorem eq_strv : ∀ (g : GoVal) (b : Nat), rtVal b g = true →
    eqUpTo (stringifyVal g) g = true
  | .str s, _, _ => by
    show eqUpTo (.str s) (.str s) = true
    simp [eqUpTo]
  | .int n, _, _ => by
    show eqUpTo (.str (intToDec n)) (.int n) = true
    simp [eqUpTo]
  | .bool b2, _, _ => by
    show eqUpTo (.str (if b2 then "true" else "false")) (.bool b2) = true
    cases b2 <;> simp [eqUpTo]
  | .ptr r, b, hrt => by simp [rtVal] at hrt
  | .gmap m, b, hrt => by
    obtain ⟨_, _, hmap⟩ := rtVal_gmap hrt
    show eqUpTo (.map (stringifyMap m)) (.gmap m) = true
    simp only [eqUpTo, Bool.and_eq_true]
    constructor
    · exact eq_strm m (b - 1) m hmap (lookupGo_self hmap)
    · refine keysBack_of m (stringifyMap m) (fun p hp => ?_)
      rw [lookupStr_stringifyMap, lookupGo_self hmap p hp]
      rfl
  | .slice es, b, hrt => by
    obtain ⟨_, _, hel⟩ := rtVal_slice hrt
    show eqUpTo (.seq (stringifySeq es)) (.slice es) = true
    simp only [eqUpTo]
    exact eq_strs es b hel
termination_by g => sizeOf g

/-- `eq_strv` over mapping entries, against any Go map that stores every
entry. -/
theorem eq_strm : ∀ (entries : List (String × GoVal)) (b : Nat)
    (gm : List (String × GoVal)), rtMap b entries = true →
    (∀ p ∈ entries, lookupGo gm p.1 = some p.2) →
    eqMapIn (stringifyMap entries) gm = true
  | [], _, gm, _, _ => by
    show eqMapIn [] gm = true
    simp [eqMapIn]
  | (k, v) :: rest, b, gm, hrt, hl => by
    obtain ⟨_, _, hv, hrest⟩ := rtMap_cons hrt
    show eqMapIn ((k, stringifyVal v) :: stringifyMap rest) gm = true
    simp only [eqMapIn, Bool.and_eq_true]
    constructor
    · rw [hl (k, v) (by simp)]
      exact eq_strv v b hv
    · exact eq_strm rest b gm hrest (fun p hp => hl p (by simp [hp]))
termination_by entries => sizeOf entries

/-- `eq_strv` over sequence elements: the stringified elements match the
original slice elementwise (hence as multisets). -/
theorem eq_strs : ∀ (es : List GoVal) (b : Nat), rtElems b es = true →
    eqSeq (stringifySeq es) es = true
  | [], _, _ => by
    show eqSeq [] [] = true
    simp [eqSeq]
  | e :: rest, b, hrt => by
    obtain ⟨_, he, hrest⟩ := rtElems_cons hrt
    show eqSeq (stringifyVal e :: stringifySeq rest) (e :: rest) = true
    simp [eqSeq, pick, eq_strv e b he]
    exact eq_strs rest b hrest
termination_by es => sizeOf es
end

/-- The stringified tree of a round-trip input compares equal to the
input at the root. -/
theorem eqRoot_stringify (data : List (String × GoVal))
    (h : rtRoot data = true) : eqRoot (stringifyMap data) data = true := by
  have hm : rtMap (maxRecursionDepth - 1) data = true := by
    rw [← rtRoot_eq]; exact h
  simp only [eqRoot, Bool.and_eq_true]
  constructor
  · exact eq_strm data (maxRecursionDepth - 1) data hm (lookupGo_self hm)
  · refine keysBack_of data (stringifyMap data) (fun p hp => ?_)
    rw [lookupStr_stringifyMap, lookupGo_self hm p hp]
    rfl

/-- Decoding a run of `name[i]` pairs starting from a slice that already
holds the indices of `done`: once the slice reaches `maxSliceSize`
entries, the next pair fails with SliceSizeExceeded. -/
theorem decodeLoop_idxs (name : String) (hn : name ≠ "")
    (hw : isWordString name = true) :
    ∀ (idxs done : List Nat) (d : Nat),
      (∀ i ∈ idxs, i < 2 ^ 63) →
      (∀ i ∈ idxs, i ∉ done) →
      idxs.Nodup →
      done.length + idxs.length = maxSliceSize + 1 →
      done.length ≤ maxSliceSize →
      (decodeLoop [(name, .mins (esOf done))]
        (idxs.map (fun i => (name ++ "[" ++ natToDec i ++ "]", "v"))) d).2 =
        .error .sliceSizeExceeded := by
  intro idxs
  induction idxs with
  | nil =>
    intro done d _ _ _ hsum hle
    simp [maxSliceSize] at hsum hle
    omega
  | cons i rest ih =>
    intro done d hbound hnew hnodup hsum hle
    simp only [List.map_cons, decodeLoop]
    rw [setNested_idxKey _ name i (.str "v") d hn hw (hbound i (by simp))]
    rw [getOrCreateSlice_single]
    by_cases hfull : maxSliceSize ≤ (esOf done).length
    · rw [if_pos hfull]
      rfl
    · rw [if_neg hfull]
      simp only [Except.map, insertInt_esOf done i (hnew i (by simp)),
        insertStr_single]
      refine ih (done ++ [i]) (d + 1) (fun j hj => hbound j (by simp [hj]))
        (fun j hj => ?_) (List.Nodup.of_cons hnodup) ?_ ?_
      · intro hmem
        rcases List.mem_append.mp hmem with h | h
        · exact hnew j (by simp [hj]) h
        · simp only [List.mem_singleton] at h
          subst h
          exact (List.nodup_cons.mp hnodup).1 hj
      · simp only [List.length_append, List.length_cons,
          List.length_nil] at hsum ⊢
        omega
      · rw [esOf_length] at hfull
        simp only [List.length_append, List.length_cons, List.length_nil]
        omega

/-!  ## Claims C2, C3, C4, C5, C8, C9, C10 -/

/-- C2: the claim says the post-pass leaves no SparseSequence anywhere,
including ones nested inside Mappings that are elements of another
SparseSequence.  The code does not recurse into the elements of a
collapsed slice: decoding `a[0].b[0]=x` succeeds and returns a tree whose
slice element still holds a `*minSlice` under key `b`, contradicting the
claim and the doc comment of `convertMinSlicesToRegularSlices` ("converts
all MinSlice instances in the map to regular slices recursively"). -/
theorem C2_sparse_slice_survives_decode :
    decodeURL [("a[0].b[0]", "x")] =
      .ok [("a", .seq [.map [("b", .mins [((0 : Int), .str "x")])]])] ∧
    hasMinsMap [("a", .seq [.map [("b", .mins [((0 : Int), .str "x")])]])] = true :=
  ⟨rfl, rfl⟩

/-- C3 counterexample: eleven pairs with one segment each drive the shared
depth counter to 11, which exceeds the limit of 10, yet Decode succeeds —
the aggregate counter is threaded through but never checked, so the
claimed "or aggregate count exceeds the limit" failure condition is false. -/
theorem C3_counterexample :
    (decodeLoop []
      [("a", "v"), ("b", "v"), ("c", "v"), ("d", "v"), ("e", "v"), ("f", "v"),
       ("g", "v"), ("h", "v"), ("i", "v"), ("j", "v"), ("k", "v")] 0).1 = 11 ∧
    decodeURL
      [("a", "v"), ("b", "v"), ("c", "v"), ("d", "v"), ("e", "v"), ("f", "v"),
       ("g", "v"), ("h", "v"), ("i", "v"), ("j", "v"), ("k", "v")] =
    .ok
      [("a", .str "v"), ("b", .str "v"), ("c", .str "v"), ("d", .str "v"),
       ("e", .str "v"), ("f", .str "v"), ("g", .str "v"), ("h", .str "v"),
       ("i", .str "v"), ("j", .str "v"), ("k", .str "v")] :=
  ⟨rfl, rfl⟩

/-- C3 amended: Decode fails with RecursionDepthExceeded exactly when some
individual path has more than 10 dot-separated segments.  The aggregate
depth counter is incremented once per processed segment but never compared
against the limit, so it never causes a failure: if every path has at most
10 segments the error cannot occur (first conjunct), while a single path
with more than 10 segments fails immediately (second conjunct). -/
theorem C3_amended :
    (∀ pairs : List (String × String),
      (∀ p ∈ pairs, (splitDots p.1).length ≤ maxRecursionDepth) →
      decodeURL pairs ≠ .error .recursionDepthExceeded)
    ∧ (∀ (current : SMap) (key : String) (value : DVal) (depth : Nat),
      maxRecursionDepth < (splitDots key).length →
      setNestedMapValue current key value depth =
        (depth, .error .recursionDepthExceeded)) := by
  constructor
  · intro pairs hk h
    have := decodeURL_err_notDepth pairs hk _ h
    simp [notDepthErr] at this
  · intro current key value depth hlen
    have hkey : key ≠ "" := by
      intro hk
      subst hk
      simp [splitDots, splitDotsChars, maxRecursionDepth] at hlen
    unfold setNestedMapValue
    rw [if_neg hkey, if_pos hlen]

/-- C3 witness: the amended theorem applied at concrete inputs — a single
shallow pair cannot produce the depth error, and an 11-segment key fails
immediately. -/
theorem C3_witness :
    decodeURL [("a", "v")] ≠ .error .recursionDepthExceeded ∧
    setNestedMapValue [] "a.a.a.a.a.a.a.a.a.a.a" (.str "v") 0 =
      (0, .error .recursionDepthExceeded) :=
  ⟨C3_amended.1 [("a", "v")] (by decide),
   C3_amended.2 [] "a.a.a.a.a.a.a.a.a.a.a" (.str "v") 0 (by decide)⟩

/-- C4 counterexample: the intermediate segment `a[x]` contains both `[`
and `]` and does not match the slice grammar, yet Decode does not fail
with InvalidSliceIndex — `getIntermediateValue` has no such check and
treats the segment as a plain Name key. -/
theorem C4_counterexample :
    decodeURL [("a[x].b", "v")] = .ok [("a[x]", .map [("b", .str "v")])] :=
  rfl

/-- C4 amended: only a **terminal** segment containing both `[` and `]`
without a grammar match fails with InvalidSliceIndex naming the segment
(first conjunct, `setFinalValue`); an intermediate segment of that shape
is treated as a plain Name segment with no error (the counterexample).
The second conjunct checks the terminal behaviour end to end. -/
theorem C4_amended :
    (∀ (current : SMap) (part : String) (value : DVal),
      part.data.contains '[' = true → part.data.contains ']' = true →
      findSliceMatch part = none →
      setFinalValue current part value = .error (.invalidSliceIndex part))
    ∧ decodeURL [("list[abc]", "v")] = .error (.invalidSliceIndex "list[abc]") := by
  refine ⟨?_, rfl⟩
  intro current part value h1 h2 h3
  unfold setFinalValue
  rw [h1, h2, h3]
  simp

/-- C4 witness: the amended theorem applied to the segment `list[abc]`. -/
theorem C4_witness :
    ("list[abc]".data.contains '[' = true ∧
     "list[abc]".data.contains ']' = true ∧
     findSliceMatch "list[abc]" = none) ∧
    setFinalValue [] "list[abc]" (.str "v") =
      .error (.invalidSliceIndex "list[abc]") :=
  ⟨⟨rfl, rfl, rfl⟩, C4_amended.1 [] "list[abc]" (.str "v") rfl rfl rfl⟩

/-- C5 counterexample: the path `list[-1]` fails with InvalidSliceIndex,
not with the NegativeIndex error the claim names: `-` is not a digit, so
the segment does not match `(\w+)\[(\d+)\]` at all and is rejected by the
bracket check in `setFinalValue`. -/
theorem C5_counterexample :
    decodeURL [("list[-1]", "value")] =
      .error (.invalidSliceIndex "list[-1]") :=
  rfl

/-- C5 amended: `list[-1]` fails with InvalidSliceIndex (first conjunct),
and the negative-index rejection of `parseSliceIndex` is unreachable from
Decode — the `\d+` capture is always a non-negative number, so Decode
never returns the NegativeIndex error at all (second conjunct). -/
theorem C5_amended :
    decodeURL [("list[-1]", "value")] =
      .error (.invalidSliceIndex "list[-1]")
    ∧ ∀ (pairs : List (String × String)) (i : Int),
      decodeURL pairs ≠ .error (.negativeIndex i) := by
  refine ⟨rfl, ?_⟩
  intro pairs i h
  have := decodeURL_err_notNeg pairs _ h
  simp [notNegErr] at this

/-- C5 witness: the amended theorem applied at a concrete input. -/
theorem C5_witness :
    decodeURL [("x", "y")] ≠ .error (.negativeIndex 0) :=
  C5_amended.2 [("x", "y")] 0

/-- C8: encoding a nil Reference emits no pair at all (the output of a
single-entry encode is empty, the key is absent rather than mapped to an
empty string), and a present Reference is encoded transparently under the
same path. -/
theorem C8_nil_pointer_emits_nothing :
    (∀ k : String, Encode [(k, .ptr none)] = .ok []) ∧
    (∀ (values : UV) (fieldTag : String) (v : GoVal),
      encodeValue values fieldTag (.ptr (some v)) =
        encodeValue values fieldTag v) ∧
    (∀ (k : String) (v : GoVal),
      Encode [(k, .ptr (some v))] = Encode [(k, v)]) := by
  have h2 : ∀ (values : UV) (fieldTag : String) (v : GoVal),
      encodeValue values fieldTag (.ptr (some v)) =
        encodeValue values fieldTag v := by
    intro values fieldTag v
    simp [encodeValue, encodePtr]
  refine ⟨?_, h2, ?_⟩
  · intro k
    simp [Encode, encodeLoop, encodeValue, encodePtr]
  · intro k v
    simp only [Encode, encodeLoop, h2]

/-- C9: `decodeURL` reads `value[0]` of every entry unconditionally.  When
every value list is non-empty the access is in bounds and decode runs to
completion (first conjunct); an entry with an empty value list makes the
access out of bounds — in Go an index-out-of-range panic, modelled as
`none` (second conjunct), so Decode is not total over all `url.Values`. -/
theorem C9_first_value_access :
    (∀ values : List (String × List String),
      (∀ p ∈ values, p.2 ≠ []) → (decodeValues values).isSome = true)
    ∧ decodeValues [("k", ([] : List String))] = none := by
  have hloop : ∀ (values : List (String × List String)) (m : SMap) (d : Nat),
      (∀ p ∈ values, p.2 ≠ []) →
      (decodeValuesLoop m values d).isSome = true := by
    intro values
    induction values with
    | nil => intro m d _; simp [decodeValuesLoop]
    | cons p rest ih =>
      intro m d h
      obtain ⟨k, vs⟩ := p
      cases vs with
      | nil => exact absurd rfl (h (k, []) (by simp))
      | cons v tl =>
        simp only [decodeValuesLoop]
        split
        · simp
        · exact ih _ _ (fun q hq => h q (by simp [hq]))
  constructor
  · intro values h
    unfold decodeValues
    split
    · rename_i hl
      have := hloop values [] 0 h
      rw [hl] at this
      simp at this
    · simp
    · simp
  · rfl

/-- C9 witness: the theorem applied at a concrete one-entry input with a
non-empty value list. -/
theorem C9_witness :
    (decodeValues [("a", ["x"])]).isSome = true :=
  C9_first_value_access.1 [("a", ["x"])] (by decide)

set_option maxRecDepth 10000 in
/-- C6 counterexample: a slice that already holds 1000 entries (indices
0..999) has index 5 set, yet writing `list[5]` again does not silently
overwrite — `getOrCreateSlice` rejects any access once the slice holds
`maxSliceSize` entries, so even the overwrite fails with
SliceSizeExceeded, contrary to the claim's unconditional "overwrites
silently with no error". -/
theorem C6_counterexample :
    lookupInt (esOf (List.range 1000)) 5 = some (.str "v") ∧
    setFinalValue [("list", .mins (esOf (List.range 1000)))] "list[5]"
      (.str "new") = .error .sliceSizeExceeded :=
  ⟨rfl, rfl⟩

/-- C6 amended: at the final segment, a Name segment whose key exists
fails with ConflictingKey (first conjunct); an Index segment whose index
is already set overwrites the stored value silently **provided the slice
holds fewer than 1000 entries** (second and third conjuncts) — at exactly
1000 entries even an overwrite fails with SliceSizeExceeded (the
counterexample). -/
theorem C6_amended :
    (∀ (current : SMap) (part : String) (value : DVal),
      part.data.contains '[' = false →
      (lookupStr current part).isSome = true →
      setFinalValue current part value = .error (.conflictingKey part))
    ∧ (∀ (current : SMap) (name : String) (idx : Nat) (es : List (Int × DVal))
        (value : DVal),
      name ≠ "" → isWordString name = true → idx < 2 ^ 63 →
      lookupStr current name = some (.mins es) →
      es.length < maxSliceSize →
      (lookupInt es (idx : Int)).isSome = true →
      setFinalValue current (name ++ "[" ++ natToDec idx ++ "]") value =
        .ok (insertStr current name (.mins (insertInt es (idx : Int) value))))
    ∧ (∀ (es : List (Int × DVal)) (idx : Int) (value : DVal),
      lookupInt (insertInt es idx value) idx = some value) := by
  refine ⟨?_, ?_, lookupInt_insertInt_self⟩
  · intro current part value h1 h2
    have hnb : ('[' : Char) ∉ part.data := not_mem_of_contains_false h1
    have hm : findSliceMatch part = none := by
      unfold findSliceMatch
      rw [findSliceAux_none _ hnb]
      rfl
    unfold setFinalValue
    rw [h1, hm]
    simp [h2]
  · intro current name idx es value hn hw hidx hlook hlen _hset
    rw [setFinalValue_slice current name idx value hn hw,
      setSliceValue_natToDec current name idx value hidx]
    have hga : getOrCreateSlice current name = .ok es := by
      unfold getOrCreateSlice
      rw [hlook]
      show (if maxSliceSize ≤ es.length then Except.error DErr.sliceSizeExceeded
        else Except.ok es) = Except.ok es
      rw [if_neg (by omega)]
    rw [hga]
    rfl

/-- C6 witness: the amended theorem applied at concrete inputs — a
duplicate plain key errors, a duplicate index below the size limit is
overwritten without error, and the overwrite is visible. -/
theorem C6_witness :
    setFinalValue [("a", .str "x")] "a" (.str "y") =
      .error (.conflictingKey "a") ∧
    setFinalValue [("list", .mins [((0 : Int), .str "old")])]
        ("list" ++ "[" ++ natToDec 0 ++ "]") (.str "new") =
      .ok (insertStr [("list", .mins [((0 : Int), .str "old")])] "list"
        (.mins (insertInt [((0 : Int), .str "old")] ((0 : Nat) : Int)
          (.str "new")))) ∧
    lookupInt (insertInt [] 0 (.str "z")) 0 = some (.str "z") :=
  ⟨C6_amended.1 [("a", .str "x")] "a" (.str "y") rfl rfl,
   C6_amended.2.1 [("list", .mins [((0 : Int), .str "old")])] "list" 0
     [((0 : Int), .str "old")] (.str "new") (by decide) rfl (by decide) rfl
     (by decide) rfl,
   C6_amended.2.2 [] 0 (.str "z")⟩

/-- C7: setting 1001 distinct indices on one sequence name fails with
SliceSizeExceeded (first conjunct, for any word-character sequence name
and any 1001 distinct in-range indices in any order), and the violation
is rejected at the point of insertion: any slice access through
`getOrCreateSlice` fails once the sequence already holds 1000 entries
(second conjunct). -/
theorem C7_slice_size_limit :
    (∀ (name : String) (idxs : List Nat),
      name ≠ "" → isWordString name = true →
      idxs.Nodup → idxs.length = maxSliceSize + 1 →
      (∀ i ∈ idxs, i < 2 ^ 63) →
      decodeURL (idxs.map (fun i => (name ++ "[" ++ natToDec i ++ "]", "v"))) =
        .error .sliceSizeExceeded)
    ∧ (∀ (current : SMap) (name : String) (es : List (Int × DVal)),
      lookupStr current name = some (.mins es) →
      maxSliceSize ≤ es.length →
      getOrCreateSlice current name = .error .sliceSizeExceeded) := by
  constructor
  · intro name idxs hn hw hnodup hlen hbound
    cases idxs with
    | nil => simp [maxSliceSize] at hlen
    | cons i0 rest =>
      have hg : getOrCreateSlice [] name = .ok [] := by
        unfold getOrCreateSlice
        have : lookupStr [] name = none := rfl
        rw [this]
        simp [maxSliceSize]
      have hstep : decodeLoop []
          ((i0 :: rest).map (fun i => (name ++ "[" ++ natToDec i ++ "]", "v"))) 0 =
          decodeLoop [(name, .mins (esOf [i0]))]
            (rest.map (fun i => (name ++ "[" ++ natToDec i ++ "]", "v"))) 1 := by
        simp only [List.map_cons, decodeLoop]
        rw [setNested_idxKey [] name i0 (.str "v") 0 hn hw (hbound i0 (by simp)), hg]
        simp only [Except.map]
        have h1 : insertInt [] ((i0 : Nat) : Int) (DVal.str "v") = esOf [i0] := by
          simp [insertInt, esOf]
        rw [h1]
        rfl
      have hrest := decodeLoop_idxs name hn hw rest [i0] 1
        (fun j hj => hbound j (by simp [hj]))
        (fun j hj hmem => by
          simp only [List.mem_singleton] at hmem
          subst hmem
          exact (List.nodup_cons.mp hnodup).1 hj)
        (List.Nodup.of_cons hnodup)
        (by simp only [List.length_cons, List.length_nil] at hlen ⊢; omega)
        (by simp [maxSliceSize])
      unfold decodeURL
      rw [hstep]
      rcases hdl : decodeLoop [(name, .mins (esOf [i0]))]
          (rest.map (fun i => (name ++ "[" ++ natToDec i ++ "]", "v"))) 1
        with ⟨d2, r⟩
      rw [hdl] at hrest
      simp only at hrest
      rw [hrest]
  · intro current name es hlook hsize
    unfold getOrCreateSlice
    rw [hlook]
    show (if maxSliceSize ≤ es.length then Except.error DErr.sliceSizeExceeded
      else Except.ok es) = Except.error DErr.sliceSizeExceeded
    rw [if_pos hsize]

/-- C7 witness: the theorem applied at the sequence name `a` and the
indices 0..1000 in order, and at a slice already holding 1000 entries. -/
theorem C7_witness :
    decodeURL ((List.range (maxSliceSize + 1)).map
      (fun i => ("a" ++ "[" ++ natToDec i ++ "]", "v"))) =
      .error .sliceSizeExceeded ∧
    getOrCreateSlice [("a", .mins (esOf (List.range maxSliceSize)))] "a" =
      .error .sliceSizeExceeded :=
  ⟨C7_slice_size_limit.1 "a" (List.range (maxSliceSize + 1)) (by decide)
      (by decide) (List.nodup_range _) (by simp)
      (fun i hi => lt_of_lt_of_le (List.mem_range.mp hi) (by decide)),
   C7_slice_size_limit.2 [("a", .mins (esOf (List.range maxSliceSize)))] "a"
     (esOf (List.range maxSliceSize)) (lookupStr_single _ _)
     (by rw [esOf_length, List.length_range])⟩

/-- C10: the slice grammar is matched as a substring, not against the
whole segment: the final segment `a[0]b` is not entirely of the form
`name[integer]`, yet the regex finds the submatch `a[0]`, and Decode
treats the segment as an Index segment with name `a` and index `0`,
silently discarding the trailing `b`. -/
theorem C10_substring_match :
    findSliceMatch "a[0]b" = some ("a", "0") ∧
    decodeURL [("a[0]b", "x")] = .ok [("a", .seq [.str "x"])] :=
  ⟨rfl, rfl⟩

/-- C1 counterexample: the claim quantifies over every StructuredValue
built from Mappings, Sequences and scalars, but an empty Mapping is
dropped entirely — `Encode` emits no pair for the key `a`, so decoding
the encoder's output yields an empty tree in which the key `a` is
missing, and the comparison fails. -/
theorem C1_counterexample :
    Encode [("a", GoVal.gmap [])] = .ok [] ∧
    decodeValues [] = some (.ok []) ∧
    eqRoot [] [("a", GoVal.gmap [])] = false := by
  refine ⟨?_, ?_, ?_⟩
  · simp [Encode, encodeLoop, encodeValue, encodeMapEntries]
  · simp [decodeValues, decodeValuesLoop, convertMap]
  · simp [eqRoot, eqMapIn, keysBack, lookupStr]

/-- C1 (amended): the round trip holds on at least the following class
of inputs (sufficient, not claimed maximal): every Mapping, including
the root, is non-empty and uses distinct non-empty keys free of `'.'`
and `'['`, a key holding a Sequence is moreover all word characters,
every Sequence is non-empty with at most 999 elements each of which is a
scalar or a Sequence-free Mapping, and every path stays within 10
segments.  On this class `Encode` succeeds and produces one pair per
scalar leaf, decoding that output (each key carrying its single value)
succeeds with the stringified tree, and that tree equals the input up to
scalar stringification, with Mappings compared by key and Sequences
compared elementwise (hence as multisets). -/
theorem C1_amended (data : List (String × GoVal)) (h : rtRoot data = true) :
    Encode data = .ok (flatPairs data) ∧
    decodeValues ((flatPairs data).map (fun p => (p.1, [p.2]))) =
      some (.ok (stringifyMap data)) ∧
    eqRoot (stringifyMap data) data = true := by
  refine ⟨encode_rt data h, ?_, eqRoot_stringify data h⟩
  rw [decodeValues_singles, decodeURL_flat data h]

/-- C1 witness: the amended theorem applied at a three-key input holding
a non-word scalar key, a nested Mapping and a two-element Sequence. -/
theorem C1_witness :
    rtRoot [("x-y", GoVal.str "v"), ("a", GoVal.gmap [("b", GoVal.str "x")]),
      ("c", GoVal.slice [GoVal.str "u", GoVal.str "w"])] = true ∧
    eqRoot (stringifyMap [("x-y", GoVal.str "v"),
        ("a", GoVal.gmap [("b", GoVal.str "x")]),
        ("c", GoVal.slice [GoVal.str "u", GoVal.str "w"])])
      [("x-y", GoVal.str "v"), ("a", GoVal.gmap [("b", GoVal.str "x")]),
        ("c", GoVal.slice [GoVal.str "u", GoVal.str "w"])] = true := by
  have h : rtRoot [("x-y", GoVal.str "v"),
      ("a", GoVal.gmap [("b", GoVal.str "x")]),
      ("c", GoVal.slice [GoVal.str "u", GoVal.str "w"])] = true := by
    simp only [rtRoot, rtVal, rtMap, rtElems, sliceFree, keyOK, plainKey,
      isWordString, lookupGo, maxRecursionDepth]
    decide
  exact ⟨h, (C1_amended _ h).2.2⟩

end Urlcodec
